import Mathlib

/-!
Verification of the PharmaDesk inventory reconciliation engine of
`backend/app/routers/pharmadesk.py` (with its near-identical copy in
`backend/app/routers/__init__.py`).

The Python code is shallowly embedded as executable Lean definitions:

* Python `dict`s (which preserve insertion order and overwrite values
  in place) are embedded as association lists with an order-preserving
  `dictInsert`.
* `float` cell parsing is embedded over exact rationals (`ℚ`) using the
  decimal-literal fragment of Python's `float` grammar (optional sign,
  digits with optional fraction part, optional exponent); `int(float(v))`
  truncation toward zero is `truncQ`.
* The SQLAlchemy `Medicine` rows are a Lean structure; `setattr` updates
  and `Medicine(**payload)` construction are explicit field updates with
  the column defaults of `models/medicine.py`.
* `_apply_import_sync_to_csv` becomes a pure function from the catalog,
  the historical dispense lines, the parsed rows, the `replace_all` flag
  and the next fresh primary key to the new catalog and the summary.
-/

namespace PharmaDesk

/-- ASCII whitespace stripped by Python `str.strip()`. -/
def isWS (c : Char) : Bool := c = ' ' ∨ c = '\t' ∨ c = '\n' ∨ c = '\r'

/-- Strip leading and trailing whitespace from a character list. -/
def trimChars (cs : List Char) : List Char :=
  ((cs.dropWhile isWS).reverse.dropWhile isWS).reverse

/-- Python `str.strip()` (structurally recursive so proofs can evaluate it). -/
def strip (s : String) : String := ⟨trimChars s.data⟩

/-- Lower-case one ASCII character (the fragment of `str.lower()` our
cells use). -/
def charLower (c : Char) : Char :=
  if 'A' ≤ c ∧ c ≤ 'Z' then Char.ofNat (c.toNat + 32) else c

/-- Python `str.lower()` over ASCII. -/
def lowerStr (s : String) : String := ⟨s.data.map charLower⟩

/-- Python `(h or "").strip().lower()` — the `_norm` helper. -/
def normH (s : String) : String := lowerStr (strip s)

/-- Python `(s or "").strip().lower()` — the `_lc` helper on a string. -/
def lc (s : String) : String := lowerStr (strip s)

/-- `_lc` applied to an optional value (`_lc(p.get("name"))`). -/
def lcOpt (s : Option String) : String := lc (s.getD "")

/-- First-match lookup in an association list (Python `dict` lookup;
the dictionaries we build never have duplicate keys). -/
def dictGet {α : Type} (d : List (String × α)) (k : String) : Option α :=
  match d with
  | [] => none
  | (k', v) :: rest => if k' = k then some v else dictGet rest k

/-- `k in d` for an association list. -/
def dictHasKey {α : Type} (d : List (String × α)) (k : String) : Bool :=
  (dictGet d k).isSome

/-- Python `d[k] = v`: overwrite the first (hence, in a duplicate-free
dict, the only) occurrence of the key in place — keeping its position,
as Python dicts do — and append when the key is absent. -/
def dictInsert {α : Type} (d : List (String × α)) (k : String) (v : α) :
    List (String × α) :=
  match d with
  | [] => [(k, v)]
  | kv :: rest => if kv.1 = k then (k, v) :: rest else kv :: dictInsert rest k v

/-- Python `d.pop(k, None)`. -/
def dictRemove {α : Type} (d : List (String × α)) (k : String) :
    List (String × α) :=
  d.filter (fun kv => kv.1 ≠ k)

/-- The `_MEDICINE_FIELD_MAP` header-synonym table. -/
def MEDICINE_FIELD_MAP : List (String × String) :=
  [("name", "name"),
   ("medicine", "name"),
   ("drugname", "name"),
   ("strength", "strength"),
   ("form", "form"),
   ("mrp", "mrp"),
   ("price", "mrp"),
   ("cost", "mrp"),
   ("tax", "tax_pct"),
   ("tax_pct", "tax_pct"),
   ("qty", "stock_qty"),
   ("quantity", "stock_qty"),
   ("stock", "stock_qty"),
   ("stock_qty", "stock_qty"),
   ("reorder", "reorder_level"),
   ("reorder_level", "reorder_level"),
   ("reorder_lev", "reorder_level"),
   ("batch", "batch_no"),
   ("batch_no", "batch_no"),
   ("expiry", "expiry_date"),
   ("expiry_date", "expiry_date")]

/-- Digit-string value. -/
def natVal (cs : List Char) : ℕ :=
  cs.foldl (fun a c => 10 * a + (c.toNat - 48)) 0

/-- Parse a nonempty all-digit character list. -/
def parseNatChars? (cs : List Char) : Option ℕ :=
  if cs = [] then none
  else if cs.all (·.isDigit) then some (natVal cs) else none

/-- `10 ^ n` on naturals, by explicit recursion so that it evaluates. -/
def pow10N : ℕ → ℕ
  | 0 => 1
  | n + 1 => 10 * pow10N n

/-- Split a character list at every occurrence of the separator `c`
(Python `str.split(c)`). -/
def splitOnChar (c : Char) : List Char → List (List Char)
  | [] => [[]]
  | x :: rest =>
      match splitOnChar c rest with
      | [] => [[]]
      | h :: t => if x = c then [] :: h :: t else (x :: h) :: t

/-- Strip one leading sign character; `true` means negative. -/
def stripSign : List Char → Bool × List Char
  | '-' :: rest => (true, rest)
  | '+' :: rest => (false, rest)
  | cs => (false, cs)

/-- Parse an unsigned mantissa (`digits`, `digits.digits`, `digits.` or
`.digits`) as a numerator/denominator pair, so that its value is
`digits + fraction / 10 ^ fractionLength` as an exact rational. -/
def parseMantissa? (cs : List Char) : Option (ℕ × ℕ) :=
  match splitOnChar '.' cs with
  | [a] => (parseNatChars? a).map (fun n => (n, 1))
  | [a, b] =>
      if a = [] ∧ b = [] then none
      else if a.all (·.isDigit) ∧ b.all (·.isDigit) then
        some (natVal a * pow10N b.length + natVal b, pow10N b.length)
      else none
  | _ => none

/-- Python `float(s)` over the decimal-literal fragment of its grammar
(sign, mantissa, optional `e`/`E` exponent), valued as an exact rational;
`inf`, `nan` and underscore separators are outside the modelled fragment
and parse as `none`. -/
def parseDec? (s : String) : Option ℚ :=
  let (neg, body) := stripSign (lowerStr s).data
  let sgn : ℤ := if neg then -1 else 1
  match splitOnChar 'e' body with
  | [m] => (parseMantissa? m).map (fun nd => mkRat (sgn * nd.1) nd.2)
  | [m, ex] =>
      let (eneg, ebody) := stripSign ex
      match parseMantissa? m, parseNatChars? ebody with
      | some nd, some n =>
          some (if eneg then mkRat (sgn * nd.1) (nd.2 * pow10N n)
                else mkRat (sgn * (nd.1 * pow10N n)) nd.2)
      | _, _ => none
  | _ => none

/-- Truncation toward zero of a rational (Python `int(float)`). -/
def truncQ (q : ℚ) : ℤ :=
  if q < 0 then -((((-q).num.toNat / (-q).den : ℕ) : ℤ))
  else (((q.num.toNat / q.den : ℕ) : ℤ))

/-- `float(val) if val else 0.0`, with the exception swallowed to `0.0`
(`_row_to_payload`'s float branch). -/
def floatOrZero (val : String) : ℚ :=
  if val = "" then 0
  else match parseDec? val with
    | some q => q
    | none => 0

/-- `int(float(val)) if val else 0`, with the exception swallowed to `0`
(`_row_to_payload`'s integer branch). -/
def intOrZero (val : String) : ℤ :=
  if val = "" then 0
  else match parseDec? val with
    | some q => truncQ q
    | none => 0

/-- A normalized medicine payload: the partial dict produced by
`_row_to_payload`. `none` means the key is absent from the dict. -/
structure Payload where
  name : Option String := none
  strength : Option String := none
  form : Option String := none
  mrp : Option ℚ := none
  tax_pct : Option ℚ := none
  stock_qty : Option ℤ := none
  reorder_level : Option ℤ := none
  batch_no : Option String := none
  expiry_date : Option String := none
deriving DecidableEq, Repr

/-- `p[field] = <parsed value>` for one canonical field name (the
`try`/`elif` ladder of `_row_to_payload`; the final `else` stores the
stripped string). -/
def setField (p : Payload) (field : String) (val : String) : Payload :=
  if field = "mrp" then { p with mrp := some (floatOrZero val) }
  else if field = "tax_pct" then { p with tax_pct := some (floatOrZero val) }
  else if field = "stock_qty" then { p with stock_qty := some (intOrZero val) }
  else if field = "reorder_level" then { p with reorder_level := some (intOrZero val) }
  else if field = "name" then { p with name := some val }
  else if field = "strength" then { p with strength := some val }
  else if field = "form" then { p with form := some val }
  else if field = "batch_no" then { p with batch_no := some val }
  else if field = "expiry_date" then { p with expiry_date := some val }
  else p

/-- Process one raw `(header, cell)` pair of a row: unknown headers are
ignored, known ones update the payload with the stripped cell. -/
def applyCell (p : Payload) (rawk v : String) : Payload :=
  match dictGet MEDICINE_FIELD_MAP (normH rawk) with
  | none => p
  | some field => setField p field (strip v)

/-- Python `a or b` for an optional string (`None` and `""` are falsy). -/
def pyOrS (a : Option String) (b : String) : String :=
  match a with
  | some s => if s = "" then b else s
  | none => b

/-- The raw-key name fallback:
`row.get("name") or row.get("medicine") or row.get("drugname") or ""`. -/
def rawNameFallback (row : List (String × String)) : String :=
  pyOrS (dictGet row "name")
    (pyOrS (dictGet row "medicine") (pyOrS (dictGet row "drugname") ""))

/-- The final `if not p.get("name")` fallback of `_row_to_payload`:
when the mapped name is absent or empty, store the raw-key fallback. -/
def nameFallbackStep (row : List (String × String)) (p : Payload) : Payload :=
  if p.name.getD "" = "" then { p with name := some (rawNameFallback row) }
  else p

/-- `_row_to_payload`: fold the row's cells, then fall back to raw
`name`/`medicine`/`drugname` keys when no (truthy) name was resolved. -/
def rowToPayload (row : List (String × String)) : Payload :=
  nameFallbackStep row (row.foldl (fun p kv => applyCell p kv.1 kv.2) {})

/-- The last cell of a row whose normalized header maps to canonical
field `f` (the one whose parse survives the dict overwrites). -/
def lastCellFor (row : List (String × String)) (f : String) : Option String :=
  match row with
  | [] => none
  | (k, v) :: rest =>
      match lastCellFor rest f with
      | some w => some w
      | none =>
          if dictGet MEDICINE_FIELD_MAP (normH k) = some f then some v else none

/-- A row of the `medicines` table (`models/medicine.py`). Nullable
columns are `Option`s; `id` is the primary key. -/
structure Medicine where
  id : ℕ
  name : String
  strength : Option String := none
  form : Option String := none
  mrp : ℚ := 0
  tax_pct : ℚ := 0
  stock_qty : ℤ := 0
  reorder_level : ℤ := 0
  batch_no : Option String := none
  expiry_date : Option String := none
  manufacturer : Option String := none
deriving DecidableEq, Repr

/-- The part of a `dispenses` row the reconciliation reads:
`medicine_id` (a nullable foreign key into `medicines`). -/
structure DispenseLine where
  medicine_id : Option ℕ
deriving DecidableEq, Repr

/-- The summary dict returned by `_apply_import_sync_to_csv`. -/
structure Summary where
  created : ℕ
  updated : ℕ
  skipped : ℕ
  deleted : ℕ
  kept_due_to_history : ℕ
  total : ℕ
  replaced_all : ℕ
deriving DecidableEq, Repr

/-- `Medicine(**payload)`: build a fresh row from the payload's fields,
with the column defaults of the model for absent fields.  (The creation
path only runs for payloads with a nonempty name, so defaulting a missing
name to `""` is unreachable.) -/
def mkMedicine (i : ℕ) (p : Payload) : Medicine :=
  { id := i
    name := p.name.getD ""
    strength := p.strength
    form := p.form
    mrp := p.mrp.getD 0
    tax_pct := p.tax_pct.getD 0
    stock_qty := p.stock_qty.getD 0
    reorder_level := p.reorder_level.getD 0
    batch_no := p.batch_no
    expiry_date := p.expiry_date
    manufacturer := none }

/-- The `setattr` loop of the upsert phase: every field present in the
payload dict overwrites the existing row's field (all payload keys exist
on the model and payload values are never `None`, so the
`hasattr`/`is not None` guards always pass); absent fields are untouched. -/
def applyPayload (m : Medicine) (p : Payload) : Medicine :=
  { m with
    name := p.name.getD m.name
    strength := match p.strength with | some v => some v | none => m.strength
    form := match p.form with | some v => some v | none => m.form
    mrp := p.mrp.getD m.mrp
    tax_pct := p.tax_pct.getD m.tax_pct
    stock_qty := p.stock_qty.getD m.stock_qty
    reorder_level := p.reorder_level.getD m.reorder_level
    batch_no := match p.batch_no with | some v => some v | none => m.batch_no
    expiry_date := match p.expiry_date with | some v => some v | none => m.expiry_date }

/-- First loop of `_apply_import_sync_to_csv`: index the incoming rows by
lower-cased name (later rows overwrite earlier ones), counting rows with
an empty name as skipped. -/
def indexRows (d : List (String × Payload)) (sk : ℕ) :
    List Payload → List (String × Payload) × ℕ
  | [] => (d, sk)
  | p :: rest =>
      let nm := lcOpt p.name
      if nm = "" then indexRows d (sk + 1) rest
      else indexRows (dictInsert d nm p) sk rest

/-- `existing_by_name`: index the catalog by lower-cased name (a later
duplicate name overwrites an earlier one). -/
def buildExisting (d : List (String × Medicine)) :
    List Medicine → List (String × Medicine)
  | [] => d
  | m :: rest => buildExisting (dictInsert d (lc m.name) m) rest

/-- `m.id in referenced_ids`: is the medicine id referenced by any
historical dispense line? -/
def referencedIn (dispenses : List DispenseLine) (mid : ℕ) : Bool :=
  dispenses.any (fun dl => dl.medicine_id = some mid)

/-- The upsert loop of `_apply_import_sync_to_csv`, folding over the
`new_by_name` items: update the row found by name (the object mutation
is an in-place map on the catalog keyed by the row id), or add a fresh
row with the next free id. -/
def upsertAll (e : List (String × Medicine)) (cat : List Medicine)
    (cr up nid : ℕ) : List (String × Payload) → List Medicine × ℕ × ℕ × ℕ
  | [] => (cat, cr, up, nid)
  | (nm, p) :: rest =>
      match dictGet e nm with
      | some mOld =>
          upsertAll e
            (cat.map (fun m => if m.id = mOld.id then applyPayload m p else m))
            cr (up + 1) nid rest
      | none =>
          upsertAll e (cat ++ [mkMedicine nid p]) (cr + 1) up (nid + 1) rest

/-- `_apply_import_sync_to_csv`: synchronize the catalog with the parsed
rows.  `catalog` is the current `medicines` table, `dispenses` the
historical dispense lines, `nextId` the next fresh primary key the
store would assign.  Returns the new catalog and the summary dict. -/
def applyImportSyncToCsv (catalog : List Medicine)
    (dispenses : List DispenseLine) (rows : List Payload)
    (replaceAll : Bool) (nextId : ℕ) : List Medicine × Summary :=
  let ix := indexRows [] 0 rows
  let newByName := ix.1
  let skipped := ix.2
  let existingByName := buildExisting [] catalog
  let toConsiderDelete :=
    if replaceAll then
      (existingByName.filter (fun kv => ¬ dictHasKey newByName kv.1)).map (·.2)
    else []
  let kept :=
    (toConsiderDelete.filter (fun m => referencedIn dispenses m.id)).length
  let deletedIds :=
    (toConsiderDelete.filter (fun m => ¬ referencedIn dispenses m.id)).map (·.id)
  let catalog1 :=
    if replaceAll then catalog.filter (fun m => ¬ deletedIds.contains m.id)
    else catalog
  let res := upsertAll existingByName catalog1 0 0 nextId newByName
  (res.1,
   { created := res.2.1
     updated := res.2.2.1
     skipped := skipped
     deleted := deletedIds.length
     kept_due_to_history := kept
     total := rows.length
     replaced_all := if replaceAll then 1 else 0 })

/-- One entry of `IMPORT_PREVIEW_CACHE`: creation time (an integer
timestamp in minutes — the `datetime` comparisons of the source depend
only on the ordered additive structure of time, so minute granularity is
kept), the parsed rows, and the `replace_all` flag stored at preview
time. -/
structure CacheEntry where
  created_at : ℤ
  rows_parsed : List Payload
  replace_all : Bool
deriving DecidableEq, Repr

/-- `IMPORT_PREVIEW_TTL_MINUTES`. -/
def IMPORT_PREVIEW_TTL_MINUTES : ℤ := 45

/-- `_purge_import_cache`, run only when a new preview is stored: drop
entries with `created_at < now - TTL`. -/
def purgeImportCache (now : ℤ) (cache : List (String × CacheEntry)) :
    List (String × CacheEntry) :=
  cache.filter (fun kv => ¬ kv.2.created_at < now - IMPORT_PREVIEW_TTL_MINUTES)

/-- `import_confirm` after the auth check: look the token up (the clock
is not consulted); absent → HTTP 410 and no change to the catalog;
present → run the reconciliation, commit, and evict the token.  Returns
the HTTP error or the summary, the resulting catalog, and the resulting
cache. -/
def importConfirm (cache : List (String × CacheEntry)) (token : String)
    (catalog : List Medicine) (dispenses : List DispenseLine)
    (replaceAll : Bool) (nextId : ℕ) :
    Except ℕ Summary × List Medicine × List (String × CacheEntry) :=
  match dictGet cache token with
  | none => (Except.error 410, catalog, cache)
  | some entry =>
      let res := applyImportSyncToCsv catalog dispenses entry.rows_parsed
        replaceAll nextId
      (Except.ok res.2, res.1, dictRemove cache token)

/-! ### Association-list (Python dict) lemmas -/

/-- The keys of an association list, in order. -/
def dictKeys {α : Type} (d : List (String × α)) : List String :=
  d.map (·.1)

theorem dictGet_dictInsert {α : Type} (d : List (String × α)) (k : String)
    (v : α) (k' : String) :
    dictGet (dictInsert d k v) k' = if k = k' then some v else dictGet d k' := by
  induction d with
  | nil => simp [dictInsert, dictGet]
  | cons kv rest ih =>
      by_cases h : kv.1 = k
      · simp only [dictInsert, if_pos h, dictGet]
        by_cases h' : k = k'
        · simp [h']
        · simp only [if_neg h', dictGet]
          rw [if_neg (by rw [h]; exact h')]
      · simp only [dictInsert, if_neg h, dictGet]
        by_cases h' : kv.1 = k'
        · have hkk : ¬ k = k' := by rw [← h']; exact fun hh => h hh.symm
          simp only [if_pos h', if_neg hkk]
        · simp only [if_neg h', ih]

theorem mem_dictInsert {α : Type} {d : List (String × α)} {k : String}
    {v : α} {kv' : String × α} (h : kv' ∈ dictInsert d k v) :
    kv' ∈ d ∨ kv' = (k, v) := by
  induction d with
  | nil => simp [dictInsert] at h; simp [h]
  | cons kv rest ih =>
      by_cases hk : kv.1 = k
      · simp only [dictInsert, if_pos hk, List.mem_cons] at h
        rcases h with h | h
        · right; exact h
        · left; simp [h]
      · simp only [dictInsert, if_neg hk, List.mem_cons] at h
        rcases h with h | h
        · left; simp [h]
        · rcases ih h with h' | h'
          · left; simp [h']
          · right; exact h'

theorem mem_dictKeys_dictInsert {α : Type} (d : List (String × α))
    (k : String) (v : α) (x : String) :
    x ∈ dictKeys (dictInsert d k v) ↔ x ∈ dictKeys d ∨ x = k := by
  induction d with
  | nil => simp [dictInsert, dictKeys]
  | cons kv rest ih =>
      by_cases hk : kv.1 = k
      · simp only [dictInsert, if_pos hk, dictKeys, List.map_cons, List.mem_cons]
        constructor
        · rintro (h | h)
          · right; exact h
          · left; right; exact h
        · rintro ((h | h) | h)
          · left; rw [h, hk]
          · right; exact h
          · left; exact h
      · simp only [dictInsert, if_neg hk, dictKeys, List.map_cons, List.mem_cons]
        rw [show (List.map (·.1) (dictInsert rest k v)) = dictKeys (dictInsert rest k v) from rfl]
        rw [ih]
        tauto

theorem nodup_dictKeys_dictInsert {α : Type} {d : List (String × α)}
    {k : String} {v : α} (h : (dictKeys d).Nodup) :
    (dictKeys (dictInsert d k v)).Nodup := by
  induction d with
  | nil => simp [dictInsert, dictKeys]
  | cons kv rest ih =>
      simp only [dictKeys, List.map_cons, List.nodup_cons] at h
      by_cases hk : kv.1 = k
      · simp only [dictInsert, if_pos hk, dictKeys, List.map_cons, List.nodup_cons]
        exact ⟨by rw [← hk]; exact h.1, h.2⟩
      · simp only [dictInsert, if_neg hk, dictKeys, List.map_cons, List.nodup_cons]
        refine ⟨?_, ih h.2⟩
        rw [show (List.map (·.1) (dictInsert rest k v)) = dictKeys (dictInsert rest k v) from rfl]
        rw [mem_dictKeys_dictInsert]
        rintro (hh | hh)
        · exact h.1 hh
        · exact hk hh

theorem dictGet_mem {α : Type} {d : List (String × α)} {k : String} {v : α}
    (h : dictGet d k = some v) : (k, v) ∈ d := by
  induction d with
  | nil => simp [dictGet] at h
  | cons kv rest ih =>
      by_cases hk : kv.1 = k
      · simp only [dictGet, if_pos hk, Option.some.injEq] at h
        have : kv = (k, v) := by
          obtain ⟨a, b⟩ := kv
          simp only at hk h
          rw [hk, h]
        rw [← this]
        exact List.mem_cons_self kv rest
      · simp only [dictGet, if_neg hk] at h
        exact List.mem_cons_of_mem kv (ih h)

theorem dictHasKey_iff_exists {α : Type} (d : List (String × α)) (k : String) :
    dictHasKey d k = true ↔ ∃ v, (k, v) ∈ d := by
  induction d with
  | nil => simp [dictHasKey, dictGet]
  | cons kv rest ih =>
      by_cases hk : kv.1 = k
      · simp only [dictHasKey, dictGet, if_pos hk, Option.isSome_some, true_iff]
        refine ⟨kv.2, ?_⟩
        have : kv = (k, kv.2) := by
          obtain ⟨a, b⟩ := kv
          simp only at hk
          rw [hk]
        rw [← this]
        exact List.mem_cons_self kv rest
      · simp only [dictHasKey, dictGet, if_neg hk]
        rw [show (dictGet rest k).isSome = dictHasKey rest k from rfl, ih]
        constructor
        · rintro ⟨v, hv⟩; exact ⟨v, List.mem_cons_of_mem kv hv⟩
        · rintro ⟨v, hv⟩
          rcases List.mem_cons.mp hv with h | h
          · exact absurd (by rw [← h]) hk
          · exact ⟨v, h⟩

theorem dictHasKey_eq_false_iff {α : Type} (d : List (String × α)) (k : String) :
    dictHasKey d k = false ↔ ∀ v, (k, v) ∉ d := by
  constructor
  · intro h v hv
    have := (dictHasKey_iff_exists d k).mpr ⟨v, hv⟩
    rw [h] at this
    exact Bool.false_ne_true this
  · intro h
    by_contra hb
    have : dictHasKey d k = true := by
      cases hx : dictHasKey d k
      · exact absurd hx hb
      · rfl
    obtain ⟨v, hv⟩ := (dictHasKey_iff_exists d k).mp this
    exact h v hv

/-! ### Lemmas about the `new_by_name` index construction -/

theorem indexRows_entry (rows : List Payload) (d : List (String × Payload))
    (sk : ℕ) (h : ∀ nm p, (nm, p) ∈ d → nm = lcOpt p.name ∧ nm ≠ "") :
    ∀ nm p, (nm, p) ∈ (indexRows d sk rows).1 → nm = lcOpt p.name ∧ nm ≠ "" := by
  induction rows generalizing d sk with
  | nil => exact h
  | cons q rest ih =>
      by_cases hq : lcOpt q.name = ""
      · simp only [indexRows, if_pos hq]
        exact ih d (sk + 1) h
      · simp only [indexRows, if_neg hq]
        refine ih _ sk ?_
        intro nm p hmem
        rcases mem_dictInsert hmem with hm | hm
        · exact h nm p hm
        · rw [Prod.mk.injEq] at hm
          exact ⟨by rw [hm.1, hm.2], by rw [hm.1]; exact hq⟩

theorem indexRows_keys_nodup (rows : List Payload) (d : List (String × Payload))
    (sk : ℕ) (h : (dictKeys d).Nodup) :
    (dictKeys (indexRows d sk rows).1).Nodup := by
  induction rows generalizing d sk with
  | nil => exact h
  | cons q rest ih =>
      by_cases hq : lcOpt q.name = ""
      · simp only [indexRows, if_pos hq]; exact ih d (sk + 1) h
      · simp only [indexRows, if_neg hq]
        exact ih _ sk (nodup_dictKeys_dictInsert h)

theorem indexRows_mem_val (rows : List Payload) (d : List (String × Payload))
    (sk : ℕ) : ∀ nm p, (nm, p) ∈ (indexRows d sk rows).1 → (nm, p) ∈ d ∨ p ∈ rows := by
  induction rows generalizing d sk with
  | nil => intro nm p hm; left; exact hm
  | cons q rest ih =>
      intro nm p hm
      by_cases hq : lcOpt q.name = ""
      · simp only [indexRows, if_pos hq] at hm
        rcases ih d (sk + 1) nm p hm with h | h
        · left; exact h
        · right; exact List.mem_cons_of_mem q h
      · simp only [indexRows, if_neg hq] at hm
        rcases ih _ sk nm p hm with h | h
        · rcases mem_dictInsert h with h' | h'
          · left; exact h'
          · right
            rw [Prod.mk.injEq] at h'
            rw [h'.2]
            exact List.mem_cons_self q rest
        · right; exact List.mem_cons_of_mem q h

theorem indexRows_hasKey (rows : List Payload) (d : List (String × Payload))
    (sk : ℕ) (nm : String) :
    dictHasKey (indexRows d sk rows).1 nm = true ↔
      dictHasKey d nm = true ∨ ∃ p ∈ rows, lcOpt p.name = nm ∧ nm ≠ "" := by
  induction rows generalizing d sk with
  | nil => simp [indexRows]
  | cons q rest ih =>
      by_cases hq : lcOpt q.name = ""
      · simp only [indexRows, if_pos hq, ih, List.mem_cons]
        constructor
        · rintro (h | ⟨p, hp, h1, h2⟩)
          · left; exact h
          · right; exact ⟨p, Or.inr hp, h1, h2⟩
        · rintro (h | ⟨p, hp | hp, h1, h2⟩)
          · left; exact h
          · exfalso; rw [hp] at h1; rw [h1] at hq; exact h2 hq
          · right; exact ⟨p, hp, h1, h2⟩
      · simp only [indexRows, if_neg hq, ih, List.mem_cons]
        have hhk : dictHasKey (dictInsert d (lcOpt q.name) q) nm = true ↔
            dictHasKey d nm = true ∨ lcOpt q.name = nm := by
          rw [dictHasKey, dictGet_dictInsert]
          by_cases h : lcOpt q.name = nm
          · simp [h]
          · simp only [if_neg h]
            rw [show (dictGet d nm).isSome = dictHasKey d nm from rfl]
            simp [h]
        rw [hhk]
        constructor
        · rintro ((h | h) | ⟨p, hp, h1, h2⟩)
          · left; exact h
          · right; exact ⟨q, Or.inl rfl, h, by rw [← h]; exact hq⟩
          · right; exact ⟨p, Or.inr hp, h1, h2⟩
        · rintro (h | ⟨p, hp | hp, h1, h2⟩)
          · left; left; exact h
          · left; right; rw [← hp]; exact h1
          · right; exact ⟨p, hp, h1, h2⟩

theorem indexRows_skipped (rows : List Payload) (d : List (String × Payload))
    (sk : ℕ) :
    (indexRows d sk rows).2 =
      sk + (rows.filter (fun p => lcOpt p.name = "")).length := by
  induction rows generalizing d sk with
  | nil => simp [indexRows]
  | cons q rest ih =>
      by_cases hq : lcOpt q.name = ""
      · simp only [indexRows, if_pos hq]
        rw [ih]
        have hd : (decide (lcOpt q.name = "")) = true := decide_eq_true hq
        simp only [List.filter_cons, hd, if_true, List.length_cons]
        omega
      · simp only [indexRows, if_neg hq]
        rw [ih]
        have hd : (decide (lcOpt q.name = "")) = false := decide_eq_false hq
        simp only [List.filter_cons, hd, Bool.false_eq_true, if_false]

theorem indexRows_append (as bs : List Payload) (d : List (String × Payload))
    (sk : ℕ) :
    indexRows d sk (as ++ bs) =
      indexRows (indexRows d sk as).1 (indexRows d sk as).2 bs := by
  induction as generalizing d sk with
  | nil => simp [indexRows]
  | cons q rest ih =>
      by_cases hq : lcOpt q.name = ""
      · simp only [List.cons_append, indexRows, if_pos hq]; exact ih _ _
      · simp only [List.cons_append, indexRows, if_neg hq]; exact ih _ _

theorem indexRows_get_of_not_mem (rows : List Payload)
    (d : List (String × Payload)) (sk : ℕ) (nm : String)
    (h : ∀ q ∈ rows, lcOpt q.name ≠ nm) :
    dictGet (indexRows d sk rows).1 nm = dictGet d nm := by
  induction rows generalizing d sk with
  | nil => rfl
  | cons q rest ih =>
      have hq' : lcOpt q.name ≠ nm := h q (List.mem_cons_self q rest)
      have hr : ∀ q' ∈ rest, lcOpt q'.name ≠ nm :=
        fun q' hq'' => h q' (List.mem_cons_of_mem q hq'')
      by_cases hq : lcOpt q.name = ""
      · simp only [indexRows, if_pos hq]; exact ih _ _ hr
      · simp only [indexRows, if_neg hq]
        rw [ih _ _ hr, dictGet_dictInsert, if_neg hq']

/-- The set of distinct nonempty lower-cased names in a row list. -/
def nameSet : List Payload → Finset String
  | [] => ∅
  | p :: rest =>
      if lcOpt p.name = "" then nameSet rest
      else insert (lcOpt p.name) (nameSet rest)

theorem mem_nameSet (rows : List Payload) (x : String) :
    x ∈ nameSet rows ↔ x ≠ "" ∧ ∃ p ∈ rows, lcOpt p.name = x := by
  induction rows with
  | nil => simp [nameSet]
  | cons q rest ih =>
      by_cases hq : lcOpt q.name = ""
      · simp only [nameSet, if_pos hq, ih, List.mem_cons]
        constructor
        · rintro ⟨h1, p, hp, h2⟩
          exact ⟨h1, p, Or.inr hp, h2⟩
        · rintro ⟨h1, p, hp | hp, h2⟩
          · exfalso; rw [hp, hq] at h2; exact h1 h2.symm
          · exact ⟨h1, p, hp, h2⟩
      · simp only [nameSet, if_neg hq, Finset.mem_insert, ih, List.mem_cons]
        constructor
        · rintro (h | ⟨h1, p, hp, h2⟩)
          · exact ⟨by rw [h]; exact hq, q, Or.inl rfl, h.symm⟩
          · exact ⟨h1, p, Or.inr hp, h2⟩
        · rintro ⟨h1, p, hp | hp, h2⟩
          · left; rw [hp] at h2; exact h2.symm
          · right; exact ⟨h1, p, hp, h2⟩

theorem toFinset_dictKeys_dictInsert {α : Type} (d : List (String × α))
    (k : String) (v : α) :
    (dictKeys (dictInsert d k v)).toFinset = insert k (dictKeys d).toFinset := by
  ext x
  simp [mem_dictKeys_dictInsert, or_comm]

theorem indexRows_keys_toFinset (rows : List Payload)
    (d : List (String × Payload)) (sk : ℕ) :
    (dictKeys (indexRows d sk rows).1).toFinset =
      (dictKeys d).toFinset ∪ nameSet rows := by
  induction rows generalizing d sk with
  | nil => simp [indexRows, nameSet]
  | cons q rest ih =>
      by_cases hq : lcOpt q.name = ""
      · simp only [indexRows, if_pos hq, nameSet, ih]
      · simp only [indexRows, if_neg hq, nameSet, ih,
          toFinset_dictKeys_dictInsert]
        ext x
        simp only [Finset.mem_union, Finset.mem_insert]
        tauto

theorem indexRows_length (rows : List Payload) :
    (indexRows [] 0 rows).1.length = (nameSet rows).card := by
  have hnodup : (dictKeys (indexRows ([] : List (String × Payload)) 0 rows).1).Nodup :=
    indexRows_keys_nodup rows [] 0 (by simp [dictKeys])
  have hlen : (indexRows ([] : List (String × Payload)) 0 rows).1.length =
      (dictKeys (indexRows ([] : List (String × Payload)) 0 rows).1).length := by
    simp [dictKeys]
  rw [hlen, ← List.toFinset_card_of_nodup hnodup, indexRows_keys_toFinset]
  simp [dictKeys]

/-- The number of rows whose (nonempty) lower-cased name is duplicated by
a later row: these rows are overwritten in the index and have no effect. -/
def dupCount : List Payload → ℕ
  | [] => 0
  | p :: rest =>
      (if lcOpt p.name ≠ "" ∧ lcOpt p.name ∈ nameSet rest then 1 else 0) +
        dupCount rest

theorem nameSet_card (rows : List Payload) :
    (nameSet rows).card + (rows.filter (fun p => lcOpt p.name = "")).length +
      dupCount rows = rows.length := by
  induction rows with
  | nil => simp [nameSet, dupCount]
  | cons q rest ih =>
      by_cases hq : lcOpt q.name = ""
      · have hd : (decide (lcOpt q.name = "")) = true := decide_eq_true hq
        have hcond : ¬ (lcOpt q.name ≠ "" ∧ lcOpt q.name ∈ nameSet rest) :=
          fun h => h.1 hq
        simp only [nameSet, if_pos hq, dupCount, List.filter_cons, hd, if_true,
          List.length_cons, if_neg hcond]
        omega
      · have hd : (decide (lcOpt q.name = "")) = false := decide_eq_false hq
        by_cases hmem : lcOpt q.name ∈ nameSet rest
        · have hcond : lcOpt q.name ≠ "" ∧ lcOpt q.name ∈ nameSet rest :=
            ⟨hq, hmem⟩
          simp only [nameSet, if_neg hq, dupCount, List.filter_cons, hd,
            Bool.false_eq_true, if_false, List.length_cons, if_pos hcond]
          rw [Finset.insert_eq_self.mpr hmem]
          omega
        · have hcond : ¬ (lcOpt q.name ≠ "" ∧ lcOpt q.name ∈ nameSet rest) :=
            fun h => hmem h.2
          simp only [nameSet, if_neg hq, dupCount, List.filter_cons, hd,
            Bool.false_eq_true, if_false, List.length_cons, if_neg hcond]
          rw [Finset.card_insert_of_not_mem hmem]
          omega

/-! ### Lemmas about `existing_by_name` -/

theorem buildExisting_entry (cat : List Medicine)
    (d : List (String × Medicine))
    (h : ∀ k m, (k, m) ∈ d → k = lc m.name) :
    ∀ k m, (k, m) ∈ buildExisting d cat → k = lc m.name := by
  induction cat generalizing d with
  | nil => exact h
  | cons m0 rest ih =>
      simp only [buildExisting]
      refine ih _ ?_
      intro k m hm
      rcases mem_dictInsert hm with h' | h'
      · exact h k m h'
      · rw [Prod.mk.injEq] at h'
        rw [h'.1, h'.2]

theorem buildExisting_val_mem (cat : List Medicine)
    (d : List (String × Medicine)) :
    ∀ k m, (k, m) ∈ buildExisting d cat → (k, m) ∈ d ∨ m ∈ cat := by
  induction cat generalizing d with
  | nil => intro k m hm; left; exact hm
  | cons m0 rest ih =>
      intro k m hm
      simp only [buildExisting] at hm
      rcases ih _ k m hm with h | h
      · rcases mem_dictInsert h with h' | h'
        · left; exact h'
        · right
          rw [Prod.mk.injEq] at h'
          rw [h'.2]
          exact List.mem_cons_self m0 rest
      · right; exact List.mem_cons_of_mem m0 h

theorem buildExisting_hasKey (cat : List Medicine)
    (d : List (String × Medicine)) (k : String) :
    dictHasKey (buildExisting d cat) k = true ↔
      dictHasKey d k = true ∨ ∃ m ∈ cat, lc m.name = k := by
  induction cat generalizing d with
  | nil => simp [buildExisting]
  | cons m0 rest ih =>
      simp only [buildExisting, ih, List.mem_cons]
      have hhk : dictHasKey (dictInsert d (lc m0.name) m0) k = true ↔
          dictHasKey d k = true ∨ lc m0.name = k := by
        rw [dictHasKey, dictGet_dictInsert]
        by_cases h : lc m0.name = k
        · simp [h]
        · simp only [if_neg h]
          rw [show (dictGet d k).isSome = dictHasKey d k from rfl]
          simp [h]
      rw [hhk]
      constructor
      · rintro ((h | h) | ⟨m, hm, h1⟩)
        · left; exact h
        · right; exact ⟨m0, Or.inl rfl, h⟩
        · right; exact ⟨m, Or.inr hm, h1⟩
      · rintro (h | ⟨m, hm | hm, h1⟩)
        · left; left; exact h
        · left; right; rw [← hm]; exact h1
        · right; exact ⟨m, hm, h1⟩

theorem dictGet_buildExisting_props (cat : List Medicine) (nm : String)
    (m : Medicine) (h : dictGet (buildExisting [] cat) nm = some m) :
    lc m.name = nm ∧ m ∈ cat := by
  have hmem := dictGet_mem h
  constructor
  · exact (buildExisting_entry cat [] (by simp) nm m hmem).symm
  · rcases buildExisting_val_mem cat [] nm m hmem with h' | h'
    · simp at h'
    · exact h'

theorem dictInsert_of_not_hasKey {α : Type} (d : List (String × α))
    (k : String) (v : α) (h : dictHasKey d k = false) :
    dictInsert d k v = d ++ [(k, v)] := by
  induction d with
  | nil => rfl
  | cons kv dr ih =>
      simp only [dictHasKey, dictGet] at h
      by_cases hk : kv.1 = k
      · rw [if_pos hk] at h
        simp at h
      · rw [if_neg hk] at h
        simp only [dictInsert, if_neg hk, List.cons_append, List.cons.injEq,
          true_and]
        exact ih h

theorem dictHasKey_append {α : Type} (d1 d2 : List (String × α)) (k : String) :
    dictHasKey (d1 ++ d2) k = (dictHasKey d1 k || dictHasKey d2 k) := by
  induction d1 with
  | nil => simp [dictHasKey, dictGet]
  | cons kv dr ih =>
      simp only [List.cons_append, dictHasKey, dictGet] at ih ⊢
      by_cases hk : kv.1 = k
      · simp [if_pos hk]
      · simp only [if_neg hk]
        exact ih

theorem dictHasKey_singleton {α : Type} (k' k : String) (v : α) :
    dictHasKey [(k', v)] k = true ↔ k' = k := by
  simp only [dictHasKey, dictGet]
  by_cases h : k' = k
  · simp [h]
  · simp [h]

/-- `buildExisting` on a catalog with pairwise-distinct lower-cased names
is just the pairing of each row with its name key. -/
theorem buildExisting_eq_map (cat : List Medicine)
    (d : List (String × Medicine))
    (hd : ∀ m ∈ cat, dictHasKey d (lc m.name) = false)
    (hn : (cat.map (fun m => lc m.name)).Nodup) :
    buildExisting d cat = d ++ cat.map (fun m => (lc m.name, m)) := by
  induction cat generalizing d with
  | nil => simp [buildExisting]
  | cons m0 rest ih =>
      simp only [List.map_cons, List.nodup_cons] at hn
      have h0 : dictHasKey d (lc m0.name) = false :=
        hd m0 (List.mem_cons_self m0 rest)
      simp only [buildExisting, dictInsert_of_not_hasKey d _ m0 h0]
      rw [ih _ ?_ hn.2]
      · simp
      · intro m hm
        rw [dictHasKey_append]
        have h1 : dictHasKey d (lc m.name) = false :=
          hd m (List.mem_cons_of_mem m0 hm)
        have h2 : dictHasKey [(lc m0.name, m0)] (lc m.name) = false := by
          rw [Bool.eq_false_iff]
          intro hc
          rw [dictHasKey_singleton] at hc
          exact hn.1 (hc ▸ List.mem_map_of_mem (fun m => lc m.name) hm)
        rw [h1, h2]
        rfl

/-! ### Lemmas about the upsert loop -/

theorem applyPayload_id (m : Medicine) (p : Payload) :
    (applyPayload m p).id = m.id := rfl

theorem mkMedicine_id (i : ℕ) (p : Payload) : (mkMedicine i p).id = i := rfl

theorem lcOpt_ne_empty (o : Option String) (h : lcOpt o ≠ "") :
    ∃ s, o = some s ∧ lc s = lcOpt o := by
  cases o with
  | none => exact absurd rfl h
  | some s => exact ⟨s, rfl, rfl⟩

theorem upsertAll_counts (items : List (String × Payload))
    (e : List (String × Medicine)) (cat : List Medicine) (cr up nid : ℕ) :
    (upsertAll e cat cr up nid items).2.1 +
      (upsertAll e cat cr up nid items).2.2.1 = cr + up + items.length := by
  induction items generalizing cat cr up nid with
  | nil => simp [upsertAll]
  | cons item rest ih =>
      obtain ⟨nm, p⟩ := item
      simp only [upsertAll]
      cases hg : dictGet e nm with
      | some mOld =>
          rw [ih]
          simp only [List.length_cons]
          omega
      | none =>
          rw [ih]
          simp only [List.length_cons]
          omega

theorem upsertAll_length (items : List (String × Payload))
    (e : List (String × Medicine)) (cat : List Medicine) (cr up nid : ℕ) :
    cat.length ≤ (upsertAll e cat cr up nid items).1.length := by
  induction items generalizing cat cr up nid with
  | nil => exact Nat.le_refl _
  | cons item rest ih =>
      obtain ⟨nm, p⟩ := item
      simp only [upsertAll]
      cases hg : dictGet e nm with
      | some mOld =>
          calc cat.length = (cat.map (fun m =>
                if m.id = mOld.id then applyPayload m p else m)).length := by
                rw [List.length_map]
            _ ≤ _ := ih _ _ _ _
      | none =>
          calc cat.length ≤ (cat ++ [mkMedicine nid p]).length := by
                rw [List.length_append]; omega
            _ ≤ _ := ih _ _ _ _

theorem upsertAll_id_mem (items : List (String × Payload))
    (e : List (String × Medicine)) (cat : List Medicine) (cr up nid : ℕ)
    (m : Medicine) (hm : m ∈ cat) :
    ∃ m' ∈ (upsertAll e cat cr up nid items).1, m'.id = m.id := by
  induction items generalizing cat cr up nid m with
  | nil => exact ⟨m, hm, rfl⟩
  | cons item rest ih =>
      obtain ⟨nm, p⟩ := item
      simp only [upsertAll]
      cases hg : dictGet e nm with
      | some mOld =>
          have hmem : (if m.id = mOld.id then applyPayload m p else m) ∈
              cat.map (fun m => if m.id = mOld.id then applyPayload m p else m) :=
            List.mem_map_of_mem _ hm
          obtain ⟨m', hm', hid⟩ := ih _ _ _ _ _ hmem
          refine ⟨m', hm', ?_⟩
          rw [hid]
          by_cases hc : m.id = mOld.id
          · rw [if_pos hc, applyPayload_id]
          · rw [if_neg hc]
      | none =>
          exact ih _ _ _ _ m (List.mem_append_left _ hm)

theorem upsertAll_created_of_found (items : List (String × Payload))
    (e : List (String × Medicine)) (cat : List Medicine) (cr up nid : ℕ)
    (h : ∀ nm p, (nm, p) ∈ items → dictHasKey e nm = true) :
    (upsertAll e cat cr up nid items).2.1 = cr := by
  induction items generalizing cat cr up nid with
  | nil => rfl
  | cons item rest ih =>
      obtain ⟨nm, p⟩ := item
      simp only [upsertAll]
      cases hg : dictGet e nm with
      | some mOld =>
          exact ih _ _ _ _ (fun nm' p' hmem => h nm' p' (List.mem_cons_of_mem _ hmem))
      | none =>
          exfalso
          have := h nm p (List.mem_cons_self _ _)
          rw [dictHasKey, hg] at this
          simp at this

theorem upsertAll_persist (items : List (String × Payload))
    (e : List (String × Medicine)) (cat : List Medicine) (cr up nid : ℕ)
    (m0 : Medicine) (hm : m0 ∈ cat)
    (hsafe : ∀ nm p mOld, (nm, p) ∈ items → dictGet e nm = some mOld →
        mOld.id ≠ m0.id) :
    m0 ∈ (upsertAll e cat cr up nid items).1 := by
  induction items generalizing cat cr up nid with
  | nil => exact hm
  | cons item rest ih =>
      obtain ⟨nm, p⟩ := item
      simp only [upsertAll]
      cases hg : dictGet e nm with
      | some mOld =>
          refine ih _ _ _ _ ?_
            (fun nm' p' mOld' hmem hget =>
              hsafe nm' p' mOld' (List.mem_cons_of_mem _ hmem) hget)
          have : (if m0.id = mOld.id then applyPayload m0 p else m0) ∈
              cat.map (fun m => if m.id = mOld.id then applyPayload m p else m) :=
            List.mem_map_of_mem _ hm
          rw [if_neg (fun hc =>
            hsafe nm p mOld (List.mem_cons_self _ _) hg hc.symm)] at this
          exact this
      | none =>
          exact ih _ _ _ _ (List.mem_append_left _ hm)
            (fun nm' p' mOld' hmem hget =>
              hsafe nm' p' mOld' (List.mem_cons_of_mem _ hmem) hget)

theorem upsertAll_nonneg (items : List (String × Payload))
    (e : List (String × Medicine)) (cat : List Medicine) (cr up nid : ℕ)
    (hcat : ∀ m ∈ cat, 0 ≤ m.stock_qty ∧ 0 ≤ m.reorder_level)
    (hitems : ∀ nm p, (nm, p) ∈ items →
        (∀ v, p.stock_qty = some v → 0 ≤ v) ∧
        (∀ v, p.reorder_level = some v → 0 ≤ v)) :
    ∀ m ∈ (upsertAll e cat cr up nid items).1,
      0 ≤ m.stock_qty ∧ 0 ≤ m.reorder_level := by
  induction items generalizing cat cr up nid with
  | nil => exact hcat
  | cons item rest ih =>
      obtain ⟨nm, p⟩ := item
      have hp := hitems nm p (List.mem_cons_self _ _)
      have hrest : ∀ nm' p', (nm', p') ∈ rest →
          (∀ v, p'.stock_qty = some v → 0 ≤ v) ∧
          (∀ v, p'.reorder_level = some v → 0 ≤ v) :=
        fun nm' p' hmem => hitems nm' p' (List.mem_cons_of_mem _ hmem)
      simp only [upsertAll]
      cases hg : dictGet e nm with
      | some mOld =>
          refine ih _ _ _ _ ?_ hrest
          intro m hm
          obtain ⟨m1, hm1, hm1e⟩ := List.mem_map.mp hm
          by_cases hc : m1.id = mOld.id
          · rw [if_pos hc] at hm1e
            rw [← hm1e]
            constructor
            · show (0 : ℤ) ≤ p.stock_qty.getD m1.stock_qty
              cases hs : p.stock_qty with
              | none => simpa using (hcat m1 hm1).1
              | some v => simpa using hp.1 v hs
            · show (0 : ℤ) ≤ p.reorder_level.getD m1.reorder_level
              cases hs : p.reorder_level with
              | none => simpa using (hcat m1 hm1).2
              | some v => simpa using hp.2 v hs
          · rw [if_neg hc] at hm1e
            rw [← hm1e]
            exact hcat m1 hm1
      | none =>
          refine ih _ _ _ _ ?_ hrest
          intro m hm
          rcases List.mem_append.mp hm with h' | h'
          · exact hcat m h'
          · rcases List.mem_singleton.mp h' with rfl
            constructor
            · show (0 : ℤ) ≤ p.stock_qty.getD 0
              cases hs : p.stock_qty with
              | none => simp
              | some v => simpa using hp.1 v hs
            · show (0 : ℤ) ≤ p.reorder_level.getD 0
              cases hs : p.reorder_level with
              | none => simp
              | some v => simpa using hp.2 v hs

/-! ### Creation and coverage lemmas for the upsert loop -/

theorem upsertAll_create_mem (items : List (String × Payload))
    (e : List (String × Medicine)) (cat : List Medicine) (cr up nid : ℕ)
    (nm : String) (p : Payload) (hmem : (nm, p) ∈ items)
    (hkeys : (items.map (·.1)).Nodup)
    (hnone : dictGet e nm = none)
    (htargets : ∀ nm' p' mOld, (nm', p') ∈ items → dictGet e nm' = some mOld →
        mOld.id < nid) :
    ∃ i, nid ≤ i ∧ mkMedicine i p ∈ (upsertAll e cat cr up nid items).1 := by
  induction items generalizing cat cr up nid with
  | nil => simp at hmem
  | cons item rest ih =>
      obtain ⟨nm0, p0⟩ := item
      simp only [List.map_cons, List.nodup_cons] at hkeys
      rcases List.mem_cons.mp hmem with hhd | htl
      · rw [Prod.mk.injEq] at hhd
        obtain ⟨rfl, rfl⟩ := hhd
        simp only [upsertAll, hnone]
        refine ⟨nid, Nat.le_refl _, ?_⟩
        refine upsertAll_persist rest e _ _ _ _ _
          (List.mem_append_right _ (List.mem_singleton.mpr rfl)) ?_
        intro nm' p' mOld' hmem' hget'
        have hlt := htargets nm' p' mOld' (List.mem_cons_of_mem _ hmem') hget'
        rw [mkMedicine_id]
        omega
      · simp only [upsertAll]
        cases hg : dictGet e nm0 with
        | some mOld =>
            exact ih _ _ _ _ htl hkeys.2
              (fun nm' p' mOld' hmem' hget' =>
                htargets nm' p' mOld' (List.mem_cons_of_mem _ hmem') hget')
        | none =>
            obtain ⟨i, hi, hmem'⟩ := ih _ _ _ (nid + 1) htl hkeys.2
              (fun nm' p' mOld' hmem'' hget' =>
                Nat.lt_succ_of_lt
                  (htargets nm' p' mOld' (List.mem_cons_of_mem _ hmem'') hget'))
            exact ⟨i, Nat.le_of_succ_le hi, hmem'⟩

theorem upsertAll_cover (items : List (String × Payload))
    (e : List (String × Medicine)) (cat : List Medicine) (cr up nid : ℕ)
    (hfresh : ∀ m ∈ cat, m.id < nid)
    (hkeys : (items.map (·.1)).Nodup)
    (hdom : ∀ nm p, (nm, p) ∈ items → nm = lcOpt p.name ∧ nm ≠ "")
    (hexist : ∀ nm p mOld, (nm, p) ∈ items → dictGet e nm = some mOld →
        mOld.id < nid ∧ ∃ m ∈ cat, m.id = mOld.id)
    (hinj : ∀ nm1 p1 nm2 p2 m1 m2, (nm1, p1) ∈ items → (nm2, p2) ∈ items →
        dictGet e nm1 = some m1 → dictGet e nm2 = some m2 → m1.id = m2.id →
        nm1 = nm2) :
    ∀ nm p, (nm, p) ∈ items →
      ∃ m ∈ (upsertAll e cat cr up nid items).1, lc m.name = nm := by
  induction items generalizing cat cr up nid with
  | nil => intro nm p hmem; simp at hmem
  | cons item rest ih =>
      obtain ⟨nm0, p0⟩ := item
      simp only [List.map_cons, List.nodup_cons] at hkeys
      intro nm p hmem
      have hdom0 := hdom nm0 p0 (List.mem_cons_self _ _)
      obtain ⟨s0, hs0, hlcs0⟩ := lcOpt_ne_empty p0.name (hdom0.1 ▸ hdom0.2)
      rcases List.mem_cons.mp hmem with hhd | htl
      · rw [Prod.mk.injEq] at hhd
        obtain ⟨rfl, rfl⟩ := hhd
        simp only [upsertAll]
        cases hg : dictGet e nm with
        | some mOld =>
            obtain ⟨hlt, m1, hm1, hid1⟩ :=
              hexist nm p mOld (List.mem_cons_self _ _) hg
            have hupd : applyPayload m1 p ∈
                cat.map (fun m => if m.id = mOld.id then applyPayload m p else m) :=
              List.mem_map.mpr ⟨m1, hm1, if_pos hid1⟩
            refine ⟨applyPayload m1 p, ?_, ?_⟩
            · refine upsertAll_persist rest e _ _ _ _ _ hupd ?_
              intro nm' p' mOld' hmem' hget'
              rw [applyPayload_id, hid1]
              intro hc
              have hnm := hinj nm' p' nm p mOld' mOld
                (List.mem_cons_of_mem _ hmem') (List.mem_cons_self _ _)
                hget' hg hc
              rw [hnm] at hmem'
              exact hkeys.1 (List.mem_map_of_mem (·.1) hmem')
            · show lc (p.name.getD m1.name) = nm
              rw [hs0]
              simp only [Option.getD_some]
              rw [hlcs0, ← hdom0.1]
        | none =>
            refine ⟨mkMedicine nid p, ?_, ?_⟩
            · refine upsertAll_persist rest e _ _ _ _ _
                (List.mem_append_right _ (List.mem_singleton.mpr rfl)) ?_
              intro nm' p' mOld' hmem' hget'
              have := (hexist nm' p' mOld'
                (List.mem_cons_of_mem _ hmem') hget').1
              rw [mkMedicine_id]
              omega
            · show lc (p.name.getD "") = nm
              rw [hs0]
              simp only [Option.getD_some]
              rw [hlcs0, ← hdom0.1]
      · simp only [upsertAll]
        have hdomr : ∀ nm' p', (nm', p') ∈ rest → nm' = lcOpt p'.name ∧ nm' ≠ "" :=
          fun nm' p' h => hdom nm' p' (List.mem_cons_of_mem _ h)
        have hinjr : ∀ nm1 p1 nm2 p2 m1 m2, (nm1, p1) ∈ rest → (nm2, p2) ∈ rest →
            dictGet e nm1 = some m1 → dictGet e nm2 = some m2 → m1.id = m2.id →
            nm1 = nm2 :=
          fun nm1 p1 nm2 p2 m1 m2 h1 h2 => hinj nm1 p1 nm2 p2 m1 m2
            (List.mem_cons_of_mem _ h1) (List.mem_cons_of_mem _ h2)
        cases hg : dictGet e nm0 with
        | some mOld =>
            refine ih _ _ _ _ ?_ hkeys.2 hdomr ?_ hinjr nm p htl
            · intro m hm
              obtain ⟨m1, hm1, hm1e⟩ := List.mem_map.mp hm
              rw [← hm1e]
              by_cases hc : m1.id = mOld.id
              · rw [if_pos hc, applyPayload_id]
                exact hfresh m1 hm1
              · rw [if_neg hc]
                exact hfresh m1 hm1
            · intro nm' p' mOld' hmem' hget'
              obtain ⟨hlt, m1, hm1, hid1⟩ :=
                hexist nm' p' mOld' (List.mem_cons_of_mem _ hmem') hget'
              refine ⟨hlt, ?_⟩
              refine ⟨if m1.id = mOld.id then applyPayload m1 p0 else m1,
                List.mem_map_of_mem _ hm1, ?_⟩
              by_cases hc : m1.id = mOld.id
              · rw [if_pos hc, applyPayload_id, hid1]
              · rw [if_neg hc, hid1]
        | none =>
            refine ih _ _ _ _ ?_ hkeys.2 hdomr ?_ hinjr nm p htl
            · intro m hm
              rcases List.mem_append.mp hm with h' | h'
              · exact Nat.lt_succ_of_lt (hfresh m h')
              · rcases List.mem_singleton.mp h' with rfl
                rw [mkMedicine_id]
                exact Nat.lt_succ_self nid
            · intro nm' p' mOld' hmem' hget'
              obtain ⟨hlt, m1, hm1, hid1⟩ :=
                hexist nm' p' mOld' (List.mem_cons_of_mem _ hmem') hget'
              exact ⟨Nat.lt_succ_of_lt hlt,
                m1, List.mem_append_left _ hm1, hid1⟩

/-! ### Name-uniqueness preservation through the upsert loop -/

theorem upsertAll_names_nodup (items : List (String × Payload))
    (e : List (String × Medicine)) (cat : List Medicine) (cr up nid : ℕ)
    (hcatN : (cat.map (fun m => lc m.name)).Nodup)
    (hcatIds : (cat.map (·.id)).Nodup)
    (hfresh : ∀ m ∈ cat, m.id < nid)
    (hkeys : (items.map (·.1)).Nodup)
    (hdom : ∀ nm p, (nm, p) ∈ items → nm = lcOpt p.name ∧ nm ≠ "")
    (hfound : ∀ nm p mOld, (nm, p) ∈ items → dictGet e nm = some mOld →
        mOld.id < nid ∧ ∀ m ∈ cat, m.id = mOld.id → lc m.name = nm)
    (hnotfound : ∀ nm p, (nm, p) ∈ items → dictGet e nm = none →
        ∀ m ∈ cat, lc m.name ≠ nm)
    (hinj : ∀ nm1 p1 nm2 p2 m1 m2, (nm1, p1) ∈ items → (nm2, p2) ∈ items →
        dictGet e nm1 = some m1 → dictGet e nm2 = some m2 → m1.id = m2.id →
        nm1 = nm2) :
    ((upsertAll e cat cr up nid items).1.map (fun m => lc m.name)).Nodup := by
  induction items generalizing cat cr up nid with
  | nil => exact hcatN
  | cons item rest ih =>
      obtain ⟨nm0, p0⟩ := item
      simp only [List.map_cons, List.nodup_cons] at hkeys
      have hdom0 := hdom nm0 p0 (List.mem_cons_self _ _)
      obtain ⟨s0, hs0, hlcs0⟩ := lcOpt_ne_empty p0.name (hdom0.1 ▸ hdom0.2)
      have hdomr : ∀ nm p, (nm, p) ∈ rest → nm = lcOpt p.name ∧ nm ≠ "" :=
        fun nm p h => hdom nm p (List.mem_cons_of_mem _ h)
      have hinjr : ∀ nm1 p1 nm2 p2 m1 m2, (nm1, p1) ∈ rest → (nm2, p2) ∈ rest →
          dictGet e nm1 = some m1 → dictGet e nm2 = some m2 → m1.id = m2.id →
          nm1 = nm2 :=
        fun nm1 p1 nm2 p2 m1 m2 h1 h2 => hinj nm1 p1 nm2 p2 m1 m2
          (List.mem_cons_of_mem _ h1) (List.mem_cons_of_mem _ h2)
      simp only [upsertAll]
      cases hg : dictGet e nm0 with
      | some mOld0 =>
          set f : Medicine → Medicine :=
            fun m => if m.id = mOld0.id then applyPayload m p0 else m with hf
          have hfound0 := hfound nm0 p0 mOld0 (List.mem_cons_self _ _) hg
          have hnames : (cat.map f).map (fun m => lc m.name) =
              cat.map (fun m => lc m.name) := by
            rw [List.map_map]
            refine List.map_congr_left ?_
            intro m hm
            by_cases hc : m.id = mOld0.id
            · have h1 : f m = applyPayload m p0 := if_pos hc
              have h2 : lc m.name = nm0 := hfound0.2 m hm hc
              simp only [Function.comp_apply, h1]
              show lc (p0.name.getD m.name) = lc m.name
              rw [hs0, Option.getD_some, hlcs0, ← hdom0.1, h2]
            · have h1 : f m = m := if_neg hc
              simp only [Function.comp_apply, h1]
          have hids : (cat.map f).map (·.id) = cat.map (·.id) := by
            rw [List.map_map]
            refine List.map_congr_left ?_
            intro m hm
            by_cases hc : m.id = mOld0.id
            · have h1 : f m = applyPayload m p0 := if_pos hc
              simp only [Function.comp_apply, h1, applyPayload_id]
            · have h1 : f m = m := if_neg hc
              simp only [Function.comp_apply, h1]
          refine ih (cat.map f) cr (up + 1) nid ?_ ?_ ?_ hkeys.2 hdomr ?_ ?_ hinjr
          · rw [hnames]; exact hcatN
          · rw [hids]; exact hcatIds
          · intro m hm
            obtain ⟨m1, hm1, hm1e⟩ := List.mem_map.mp hm
            rw [← hm1e]
            by_cases hc : m1.id = mOld0.id
            · have h1 : f m1 = applyPayload m1 p0 := if_pos hc
              rw [h1, applyPayload_id]
              exact hfresh m1 hm1
            · have h1 : f m1 = m1 := if_neg hc
              rw [h1]
              exact hfresh m1 hm1
          · intro nm' p' mOld' hmem' hget'
            have hf' := hfound nm' p' mOld' (List.mem_cons_of_mem _ hmem') hget'
            refine ⟨hf'.1, ?_⟩
            intro m' hm' hid'
            obtain ⟨m1, hm1, hm1e⟩ := List.mem_map.mp hm'
            by_cases hc : m1.id = mOld0.id
            · exfalso
              have h1 : f m1 = applyPayload m1 p0 := if_pos hc
              rw [← hm1e, h1, applyPayload_id] at hid'
              have hnm := hinj nm0 p0 nm' p' mOld0 mOld'
                (List.mem_cons_self _ _) (List.mem_cons_of_mem _ hmem')
                hg hget' (by rw [← hc, hid'])
              rw [hnm] at hkeys
              exact hkeys.1 (List.mem_map_of_mem (·.1) hmem')
            · have h1 : f m1 = m1 := if_neg hc
              rw [← hm1e, h1] at hid' ⊢
              exact hf'.2 m1 hm1 hid'
          · intro nm' p' hmem' hget'
            intro m' hm'
            obtain ⟨m1, hm1, hm1e⟩ := List.mem_map.mp hm'
            by_cases hc : m1.id = mOld0.id
            · have h1 : f m1 = applyPayload m1 p0 := if_pos hc
              rw [← hm1e, h1]
              show lc (p0.name.getD m1.name) ≠ nm'
              rw [hs0, Option.getD_some, hlcs0, ← hdom0.1]
              intro hcontra
              rw [hcontra] at hg
              rw [hget'] at hg
              exact Option.noConfusion hg
            · have h1 : f m1 = m1 := if_neg hc
              rw [← hm1e, h1]
              exact hnotfound nm' p' (List.mem_cons_of_mem _ hmem') hget' m1 hm1
      | none =>
          have hnew : lc (mkMedicine nid p0).name = nm0 := by
            show lc (p0.name.getD "") = nm0
            rw [hs0, Option.getD_some, hlcs0, ← hdom0.1]
          refine ih (cat ++ [mkMedicine nid p0]) (cr + 1) up (nid + 1)
            ?_ ?_ ?_ hkeys.2 hdomr ?_ ?_ hinjr
          · rw [List.map_append, List.nodup_append]
            refine ⟨hcatN, by simp, ?_⟩
            intro x hx hx'
            simp only [List.map_cons, List.map_nil, List.mem_singleton] at hx'
            rw [hx', hnew] at hx
            obtain ⟨m1, hm1, hm1e⟩ := List.mem_map.mp hx
            exact hnotfound nm0 p0 (List.mem_cons_self _ _) hg m1 hm1 hm1e
          · rw [List.map_append, List.nodup_append]
            refine ⟨hcatIds, by simp, ?_⟩
            intro x hx hx'
            simp only [List.map_cons, List.map_nil, List.mem_singleton] at hx'
            rw [hx', mkMedicine_id] at hx
            obtain ⟨m1, hm1, hm1e⟩ := List.mem_map.mp hx
            have := hfresh m1 hm1
            omega
          · intro m hm
            rcases List.mem_append.mp hm with h' | h'
            · exact Nat.lt_succ_of_lt (hfresh m h')
            · rcases List.mem_singleton.mp h' with rfl
              rw [mkMedicine_id]
              exact Nat.lt_succ_self nid
          · intro nm' p' mOld' hmem' hget'
            have hf' := hfound nm' p' mOld' (List.mem_cons_of_mem _ hmem') hget'
            refine ⟨Nat.lt_succ_of_lt hf'.1, ?_⟩
            intro m' hm' hid'
            rcases List.mem_append.mp hm' with h' | h'
            · exact hf'.2 m' h' hid'
            · exfalso
              rcases List.mem_singleton.mp h' with rfl
              rw [mkMedicine_id] at hid'
              have := hf'.1
              omega
          · intro nm' p' hmem' hget'
            intro m' hm'
            rcases List.mem_append.mp hm' with h' | h'
            · exact hnotfound nm' p' (List.mem_cons_of_mem _ hmem') hget' m' h'
            · rcases List.mem_singleton.mp h' with rfl
              rw [hnew]
              intro hcontra
              rw [hcontra] at hkeys
              exact hkeys.1 (List.mem_map_of_mem (·.1) hmem')

/-! ### Characterization of `_row_to_payload`'s numeric parsing -/

theorem applyCell_mrp (p : Payload) (k v : String) :
    (applyCell p k v).mrp =
      if dictGet MEDICINE_FIELD_MAP (normH k) = some "mrp" then
        some (floatOrZero (strip v))
      else p.mrp := by
  unfold applyCell
  cases hg : dictGet MEDICINE_FIELD_MAP (normH k) with
  | none => simp
  | some field =>
      simp only [Option.some.injEq]
      by_cases hf : field = "mrp"
      · subst hf; simp [setField]
      · rw [if_neg hf]
        unfold setField
        split_ifs <;> simp_all

theorem applyCell_tax_pct (p : Payload) (k v : String) :
    (applyCell p k v).tax_pct =
      if dictGet MEDICINE_FIELD_MAP (normH k) = some "tax_pct" then
        some (floatOrZero (strip v))
      else p.tax_pct := by
  unfold applyCell
  cases hg : dictGet MEDICINE_FIELD_MAP (normH k) with
  | none => simp
  | some field =>
      simp only [Option.some.injEq]
      by_cases hf : field = "tax_pct"
      · subst hf; simp [setField]
      · rw [if_neg hf]
        unfold setField
        split_ifs <;> simp_all

theorem applyCell_stock_qty (p : Payload) (k v : String) :
    (applyCell p k v).stock_qty =
      if dictGet MEDICINE_FIELD_MAP (normH k) = some "stock_qty" then
        some (intOrZero (strip v))
      else p.stock_qty := by
  unfold applyCell
  cases hg : dictGet MEDICINE_FIELD_MAP (normH k) with
  | none => simp
  | some field =>
      simp only [Option.some.injEq]
      by_cases hf : field = "stock_qty"
      · subst hf; simp [setField]
      · rw [if_neg hf]
        unfold setField
        split_ifs <;> simp_all

theorem applyCell_reorder_level (p : Payload) (k v : String) :
    (applyCell p k v).reorder_level =
      if dictGet MEDICINE_FIELD_MAP (normH k) = some "reorder_level" then
        some (intOrZero (strip v))
      else p.reorder_level := by
  unfold applyCell
  cases hg : dictGet MEDICINE_FIELD_MAP (normH k) with
  | none => simp
  | some field =>
      simp only [Option.some.injEq]
      by_cases hf : field = "reorder_level"
      · subst hf; simp [setField]
      · rw [if_neg hf]
        unfold setField
        split_ifs <;> simp_all

theorem foldCells_mrp (row : List (String × String)) (p0 : Payload) :
    (row.foldl (fun p kv => applyCell p kv.1 kv.2) p0).mrp =
      match lastCellFor row "mrp" with
      | some v => some (floatOrZero (strip v))
      | none => p0.mrp := by
  induction row generalizing p0 with
  | nil => rfl
  | cons kv rest ih =>
      obtain ⟨k, v⟩ := kv
      simp only [List.foldl_cons, lastCellFor]
      rw [ih]
      cases hl : lastCellFor rest "mrp" with
      | some w => rfl
      | none =>
          rw [applyCell_mrp]
          by_cases hc : dictGet MEDICINE_FIELD_MAP (normH k) = some "mrp"
          · rw [if_pos hc, if_pos hc]
          · rw [if_neg hc, if_neg hc]

theorem foldCells_tax_pct (row : List (String × String)) (p0 : Payload) :
    (row.foldl (fun p kv => applyCell p kv.1 kv.2) p0).tax_pct =
      match lastCellFor row "tax_pct" with
      | some v => some (floatOrZero (strip v))
      | none => p0.tax_pct := by
  induction row generalizing p0 with
  | nil => rfl
  | cons kv rest ih =>
      obtain ⟨k, v⟩ := kv
      simp only [List.foldl_cons, lastCellFor]
      rw [ih]
      cases hl : lastCellFor rest "tax_pct" with
      | some w => rfl
      | none =>
          rw [applyCell_tax_pct]
          by_cases hc : dictGet MEDICINE_FIELD_MAP (normH k) = some "tax_pct"
          · rw [if_pos hc, if_pos hc]
          · rw [if_neg hc, if_neg hc]

theorem foldCells_stock_qty (row : List (String × String)) (p0 : Payload) :
    (row.foldl (fun p kv => applyCell p kv.1 kv.2) p0).stock_qty =
      match lastCellFor row "stock_qty" with
      | some v => some (intOrZero (strip v))
      | none => p0.stock_qty := by
  induction row generalizing p0 with
  | nil => rfl
  | cons kv rest ih =>
      obtain ⟨k, v⟩ := kv
      simp only [List.foldl_cons, lastCellFor]
      rw [ih]
      cases hl : lastCellFor rest "stock_qty" with
      | some w => rfl
      | none =>
          rw [applyCell_stock_qty]
          by_cases hc : dictGet MEDICINE_FIELD_MAP (normH k) = some "stock_qty"
          · rw [if_pos hc, if_pos hc]
          · rw [if_neg hc, if_neg hc]

theorem foldCells_reorder_level (row : List (String × String)) (p0 : Payload) :
    (row.foldl (fun p kv => applyCell p kv.1 kv.2) p0).reorder_level =
      match lastCellFor row "reorder_level" with
      | some v => some (intOrZero (strip v))
      | none => p0.reorder_level := by
  induction row generalizing p0 with
  | nil => rfl
  | cons kv rest ih =>
      obtain ⟨k, v⟩ := kv
      simp only [List.foldl_cons, lastCellFor]
      rw [ih]
      cases hl : lastCellFor rest "reorder_level" with
      | some w => rfl
      | none =>
          rw [applyCell_reorder_level]
          by_cases hc : dictGet MEDICINE_FIELD_MAP (normH k) = some "reorder_level"
          · rw [if_pos hc, if_pos hc]
          · rw [if_neg hc, if_neg hc]

theorem nameFallbackStep_mrp (row : List (String × String)) (p : Payload) :
    (nameFallbackStep row p).mrp = p.mrp := by
  unfold nameFallbackStep; split_ifs <;> rfl

theorem nameFallbackStep_tax_pct (row : List (String × String)) (p : Payload) :
    (nameFallbackStep row p).tax_pct = p.tax_pct := by
  unfold nameFallbackStep; split_ifs <;> rfl

theorem nameFallbackStep_stock_qty (row : List (String × String)) (p : Payload) :
    (nameFallbackStep row p).stock_qty = p.stock_qty := by
  unfold nameFallbackStep; split_ifs <;> rfl

theorem nameFallbackStep_reorder_level (row : List (String × String)) (p : Payload) :
    (nameFallbackStep row p).reorder_level = p.reorder_level := by
  unfold nameFallbackStep; split_ifs <;> rfl

theorem rowToPayload_mrp (row : List (String × String)) :
    (rowToPayload row).mrp =
      match lastCellFor row "mrp" with
      | some v => some (floatOrZero (strip v))
      | none => none := by
  unfold rowToPayload
  rw [nameFallbackStep_mrp]
  exact foldCells_mrp row {}

theorem rowToPayload_tax_pct (row : List (String × String)) :
    (rowToPayload row).tax_pct =
      match lastCellFor row "tax_pct" with
      | some v => some (floatOrZero (strip v))
      | none => none := by
  unfold rowToPayload
  rw [nameFallbackStep_tax_pct]
  exact foldCells_tax_pct row {}

theorem rowToPayload_stock_qty (row : List (String × String)) :
    (rowToPayload row).stock_qty =
      match lastCellFor row "stock_qty" with
      | some v => some (intOrZero (strip v))
      | none => none := by
  unfold rowToPayload
  rw [nameFallbackStep_stock_qty]
  exact foldCells_stock_qty row {}

theorem rowToPayload_reorder_level (row : List (String × String)) :
    (rowToPayload row).reorder_level =
      match lastCellFor row "reorder_level" with
      | some v => some (intOrZero (strip v))
      | none => none := by
  unfold rowToPayload
  rw [nameFallbackStep_reorder_level]
  exact foldCells_reorder_level row {}

/-- For a nonnegative rational, the natural-division core of `truncQ`
is the floor. -/
theorem truncQ_core (q : ℚ) (h : 0 ≤ q) :
    ((q.num.toNat / q.den : ℕ) : ℤ) = ⌊q⌋ := by
  have hnum : 0 ≤ q.num := Rat.num_nonneg.mpr h
  rw [Rat.floor_def, Int.ofNat_ediv, Int.toNat_of_nonneg hnum]

theorem truncQ_of_nonneg (q : ℚ) (h : 0 ≤ q) : truncQ q = ⌊q⌋ := by
  rw [truncQ, if_neg (not_lt.mpr h)]
  exact truncQ_core q h

theorem truncQ_of_neg (q : ℚ) (h : q < 0) : truncQ q = ⌈q⌉ := by
  rw [truncQ, if_pos h]
  have h2 : (0 : ℚ) ≤ -q := by linarith
  rw [truncQ_core (-q) h2, Int.floor_neg, neg_neg]

/-- C2: under merge semantics (`replace_all=False`) `_apply_import_sync_to_csv`
deletes nothing: the summary's `deleted` counter is `0`, the catalog size
never decreases, and every existing row survives (by id) into the
resulting catalog. -/
theorem c2_merge_never_deletes (catalog : List Medicine)
    (dispenses : List DispenseLine) (rows : List Payload) (nextId : ℕ) :
    (applyImportSyncToCsv catalog dispenses rows false nextId).2.deleted = 0 ∧
    catalog.length ≤
      (applyImportSyncToCsv catalog dispenses rows false nextId).1.length ∧
    ∀ m ∈ catalog,
      ∃ m' ∈ (applyImportSyncToCsv catalog dispenses rows false nextId).1,
        m'.id = m.id := by
  unfold applyImportSyncToCsv
  simp only [Bool.false_eq_true, if_false, List.filter_nil, List.map_nil,
    List.length_nil]
  refine ⟨trivial, ?_, ?_⟩
  · exact upsertAll_length _ _ _ _ _ _
  · intro m hm
    exact upsertAll_id_mem _ _ _ _ _ _ m hm

/-- Is the lower-cased name `nm` the (nonempty) key of some incoming row? -/
def inIncoming (rows : List Payload) (nm : String) : Bool :=
  decide (nm ≠ "") && rows.any (fun p => lcOpt p.name == nm)

theorem inIncoming_iff (rows : List Payload) (nm : String) :
    inIncoming rows nm = true ↔ nm ≠ "" ∧ ∃ p ∈ rows, lcOpt p.name = nm := by
  unfold inIncoming
  rw [Bool.and_eq_true, decide_eq_true_eq, List.any_eq_true]
  simp only [beq_iff_eq]

theorem hasKey_indexRows_eq_inIncoming (rows : List Payload) (nm : String) :
    dictHasKey (indexRows [] 0 rows).1 nm = inIncoming rows nm := by
  rw [Bool.eq_iff_iff, inIncoming_iff, indexRows_hasKey rows [] 0 nm]
  constructor
  · rintro (h | ⟨p, hp, h1, h2⟩)
    · simp [dictHasKey, dictGet] at h
    · exact ⟨h2, p, hp, h1⟩
  · rintro ⟨h2, p, hp, h1⟩
    exact Or.inr ⟨p, hp, h1, h2⟩

theorem filter_map_pair (cat : List Medicine) (pr : String × Medicine → Bool) :
    ((cat.map (fun m => (lc m.name, m))).filter pr).map (·.2) =
      cat.filter (fun m => pr (lc m.name, m)) := by
  induction cat with
  | nil => rfl
  | cons m rest ih =>
      simp only [List.map_cons]
      cases hp : pr (lc m.name, m) with
      | true => simp only [List.filter_cons, hp, if_true, List.map_cons, ih]
      | false =>
          simp only [List.filter_cons, hp, Bool.false_eq_true, if_false, ih]

/-- C1: under replace semantics, an entry referenced by a historical
dispense line is never deleted: it survives into the resulting catalog
(by id), the `kept_due_to_history` counter counts exactly the referenced
entries whose name is absent from the incoming batch, and the `deleted`
counter counts exactly the unreferenced ones — so the deleted set and
the referenced set are disjoint. -/
theorem c1_replace_protects_history (catalog : List Medicine)
    (dispenses : List DispenseLine) (rows : List Payload) (nextId : ℕ) :
    (∀ m ∈ catalog, referencedIn dispenses m.id = true →
      ∃ m' ∈ (applyImportSyncToCsv catalog dispenses rows true nextId).1,
        m'.id = m.id) ∧
    ((catalog.map (fun m => lc m.name)).Nodup →
      (applyImportSyncToCsv catalog dispenses rows true nextId).2.kept_due_to_history
        = (catalog.filter (fun m =>
            !(inIncoming rows (lc m.name)) && referencedIn dispenses m.id)).length ∧
      (applyImportSyncToCsv catalog dispenses rows true nextId).2.deleted
        = (catalog.filter (fun m =>
            !(inIncoming rows (lc m.name)) && !(referencedIn dispenses m.id))).length) := by
  constructor
  · unfold applyImportSyncToCsv
    simp only [if_true]
    intro m hm href
    refine upsertAll_id_mem _ _ _ _ _ _ m ?_
    rw [List.mem_filter]
    refine ⟨hm, ?_⟩
    rw [decide_eq_true_eq]
    intro hc
    obtain ⟨m', hm', him⟩ := List.mem_map.mp (List.elem_iff.mp hc)
    rw [List.mem_filter] at hm'
    have hnr := hm'.2
    rw [decide_eq_true_eq] at hnr
    rw [him, href] at hnr
    exact hnr rfl
  · intro hNames
    have hbuild : buildExisting [] catalog =
        catalog.map (fun m => (lc m.name, m)) := by
      rw [buildExisting_eq_map catalog [] (fun m _ => rfl) hNames]
      rfl
    have hA : List.filter
        (fun a => decide ¬dictHasKey (indexRows [] 0 rows).1 (lc a.name) = true)
        catalog =
        List.filter (fun m => !(inIncoming rows (lc m.name))) catalog := by
      refine List.filter_congr ?_
      intro m hm
      rw [hasKey_indexRows_eq_inIncoming]
      cases inIncoming rows (lc m.name) <;> rfl
    unfold applyImportSyncToCsv
    simp only [if_true, hbuild, filter_map_pair, hA]
    constructor
    · rw [List.filter_filter]
      refine congrArg List.length (List.filter_congr ?_)
      intro m hm
      cases inIncoming rows (lc m.name) <;>
        cases referencedIn dispenses m.id <;> rfl
    · rw [List.length_map, List.filter_filter]
      refine congrArg List.length (List.filter_congr ?_)
      intro m hm
      cases inIncoming rows (lc m.name) <;>
        cases referencedIn dispenses m.id <;> rfl

/-- Witness for C1 at the spec's replace-with-protected-history scenario:
catalog `{A (id 1), B (id 2)}`, a dispense line referencing id 2, and a
batch containing only `A`; `B` survives and `kept_due_to_history = 1`
with `deleted = 0`. -/
theorem c1_replace_protects_history_witness :
    (∃ m' ∈ (applyImportSyncToCsv
        [{ id := 1, name := "A" }, { id := 2, name := "B" }]
        [⟨some 2⟩] [{ name := some "A", stock_qty := some 5 }] true 3).1,
      m'.id = 2) ∧
    (applyImportSyncToCsv
        [{ id := 1, name := "A" }, { id := 2, name := "B" }]
        [⟨some 2⟩] [{ name := some "A", stock_qty := some 5 }]
        true 3).2.kept_due_to_history = 1 ∧
    (applyImportSyncToCsv
        [{ id := 1, name := "A" }, { id := 2, name := "B" }]
        [⟨some 2⟩] [{ name := some "A", stock_qty := some 5 }]
        true 3).2.deleted = 0 := by
  have h := c1_replace_protects_history
    [{ id := 1, name := "A" }, { id := 2, name := "B" }]
    [⟨some 2⟩] [{ name := some "A", stock_qty := some 5 }] 3
  refine ⟨h.1 { id := 2, name := "B" } (by decide) (by decide), ?_, ?_⟩
  · rw [(h.2 (by decide)).1]; decide
  · rw [(h.2 (by decide)).2]; decide

/-- C3 (counterexample): two rows with the same lower-cased name are
collapsed by the index, so `created + updated + skipped` falls short of
`len(P)`: for two `"Aspirin"` rows the sum is `1` while `total = 2`. -/
theorem c3_counterexample :
    (applyImportSyncToCsv [] []
        [{ name := some "Aspirin", stock_qty := some 1 },
         { name := some "Aspirin", stock_qty := some 2 }] false 1).2.created +
      (applyImportSyncToCsv [] []
        [{ name := some "Aspirin", stock_qty := some 1 },
         { name := some "Aspirin", stock_qty := some 2 }] false 1).2.updated +
      (applyImportSyncToCsv [] []
        [{ name := some "Aspirin", stock_qty := some 1 },
         { name := some "Aspirin", stock_qty := some 2 }] false 1).2.skipped ≠
    (applyImportSyncToCsv [] []
        [{ name := some "Aspirin", stock_qty := some 1 },
         { name := some "Aspirin", stock_qty := some 2 }] false 1).2.total := by
  decide

/-- C3 (amended): every input row is accounted for exactly once across
`created`, `updated`, `skipped` and the rows overwritten in the index by
a later row of the same lower-cased name:
`created + updated + skipped + dupCount = len(P)`.  (The original
equality `created + updated + skipped = len(P)` therefore holds exactly
when no two rows share a nonempty lower-cased name.) -/
theorem c3_row_accounting (catalog : List Medicine)
    (dispenses : List DispenseLine) (rows : List Payload)
    (replaceAll : Bool) (nextId : ℕ) :
    (applyImportSyncToCsv catalog dispenses rows replaceAll nextId).2.created +
      (applyImportSyncToCsv catalog dispenses rows replaceAll nextId).2.updated +
      (applyImportSyncToCsv catalog dispenses rows replaceAll nextId).2.skipped +
      dupCount rows = rows.length := by
  unfold applyImportSyncToCsv
  simp only []
  rw [upsertAll_counts]
  rw [indexRows_skipped rows [] 0, indexRows_length rows]
  have := nameSet_card rows
  omega

/-- C5 (counterexample): the reconciliation path performs no clamping —
importing the parsed row `name=Aspirin, qty=-5` stores `stock_qty = -5`,
a negative value, in the catalog. -/
theorem c5_counterexample :
    ∃ m ∈ (applyImportSyncToCsv [] []
        [rowToPayload [("name", "Aspirin"), ("qty", "-5")]] false 1).1,
      m.stock_qty < 0 := by
  decide

/-- C5 (amended): `stock_qty` and `reorder_level` are non-negative after
a reconciliation call provided every prior catalog value and every parsed
incoming value is non-negative; the call itself stores incoming values
verbatim (no clamping), so a negative parsed value is stored as-is. -/
theorem c5_nonneg_preserved (catalog : List Medicine)
    (dispenses : List DispenseLine) (rows : List Payload)
    (replaceAll : Bool) (nextId : ℕ)
    (hcat : ∀ m ∈ catalog, 0 ≤ m.stock_qty ∧ 0 ≤ m.reorder_level)
    (hrows : ∀ p ∈ rows,
      0 ≤ p.stock_qty.getD 0 ∧ 0 ≤ p.reorder_level.getD 0) :
    ∀ m ∈ (applyImportSyncToCsv catalog dispenses rows replaceAll nextId).1,
      0 ≤ m.stock_qty ∧ 0 ≤ m.reorder_level := by
  unfold applyImportSyncToCsv
  simp only []
  refine upsertAll_nonneg _ _ _ _ _ _ ?_ ?_
  · intro m hm
    refine hcat m ?_
    by_cases hr : replaceAll = true
    · rw [if_pos hr] at hm
      exact (List.mem_filter.mp hm).1
    · rw [if_neg hr] at hm
      exact hm
  · intro nm p hmem
    have hp : p ∈ rows := by
      rcases indexRows_mem_val rows [] 0 nm p hmem with h | h
      · simp at h
      · exact h
    have h := hrows p hp
    constructor
    · intro v hv
      have := h.1
      rw [hv] at this
      simpa using this
    · intro v hv
      have := h.2
      rw [hv] at this
      simpa using this

/-- Witness for C5 (amended) at a concrete non-negative catalog and
batch: the single updated row of the resulting catalog has non-negative
stock and reorder level. -/
theorem c5_nonneg_preserved_witness :
    0 ≤ (applyPayload { id := 1, name := "A", stock_qty := 3 }
          { name := some "A", stock_qty := some 7 }).stock_qty ∧
    0 ≤ (applyPayload { id := 1, name := "A", stock_qty := 3 }
          { name := some "A", stock_qty := some 7 }).reorder_level :=
  c5_nonneg_preserved [{ id := 1, name := "A", stock_qty := 3 }] []
    [{ name := some "A", stock_qty := some 7 }] false 2
    (by decide) (by decide)
    (applyPayload { id := 1, name := "A", stock_qty := 3 }
      { name := some "A", stock_qty := some 7 })
    (by decide)

theorem dictGet_filter_of_not_hasKey {α : Type} (d : List (String × α))
    (pr : String × α → Bool) (k : String) (h : dictHasKey d k = false) :
    dictGet (d.filter pr) k = none := by
  induction d with
  | nil => rfl
  | cons kv rest ih =>
      simp only [dictHasKey, dictGet] at h
      by_cases hk : kv.1 = k
      · rw [if_pos hk] at h
        simp at h
      · rw [if_neg hk] at h
        simp only [List.filter_cons]
        cases hp : pr kv with
        | true =>
            simp only [if_true, dictGet, if_neg hk]
            exact ih h
        | false =>
            simp only [Bool.false_eq_true, if_false]
            exact ih h

theorem dictGet_filter_none {α : Type} (d : List (String × α))
    (pr : String × α → Bool) (k : String) (e : α)
    (hkeys : (dictKeys d).Nodup)
    (hget : dictGet d k = some e) (hpr : pr (k, e) = false) :
    dictGet (d.filter pr) k = none := by
  induction d with
  | nil => simp [dictGet] at hget
  | cons kv rest ih =>
      simp only [dictKeys, List.map_cons, List.nodup_cons] at hkeys
      by_cases hk : kv.1 = k
      · simp only [dictGet, if_pos hk, Option.some.injEq] at hget
        have hkv : kv = (k, e) := by
          obtain ⟨a, b⟩ := kv
          simp only at hk hget
          rw [hk, hget]
        simp only [List.filter_cons, hkv, hpr, Bool.false_eq_true, if_false]
        refine dictGet_filter_of_not_hasKey rest pr k ?_
        rw [dictHasKey_eq_false_iff]
        intro v hv
        apply hkeys.1
        rw [hk]
        exact List.mem_map_of_mem (·.1) hv
      · simp only [dictGet, if_neg hk] at hget
        simp only [List.filter_cons]
        cases hp : pr kv with
        | true =>
            simp only [if_true, dictGet, if_neg hk]
            exact ih hkeys.2 hget
        | false =>
            simp only [Bool.false_eq_true, if_false]
            exact ih hkeys.2 hget

/-- C4 (counterexample): `import_confirm` never consults the clock, and
the TTL purge runs only when a new preview is stored.  With a preview
token created at time `0` and no intervening preview, a confirm at time
`46` — strictly later than `0 + 45` minutes — still succeeds: it does
not signal 410 and it mutates the catalog (here, the empty catalog gains
a row). -/
theorem c4_counterexample :
    (0 : ℤ) + IMPORT_PREVIEW_TTL_MINUTES < 46 ∧
    (importConfirm
        [("tok", ⟨0, [{ name := some "X", stock_qty := some 1 }], false⟩)]
        "tok" [] [] false 1).1.isOk = true ∧
    (importConfirm
        [("tok", ⟨0, [{ name := some "X", stock_qty := some 1 }], false⟩)]
        "tok" [] [] false 1).2.1 ≠ [] := by
  refine ⟨by decide, by decide, by decide⟩

/-- C4 (amended): confirm signals HTTP 410 and performs no catalog
mutation exactly when the token is absent from the cache; the 45-minute
TTL is enforced only by the opportunistic purge that runs when a new
preview is stored.  When such a purge runs at any time `t` past the
entry's expiry (`created_at < t - 45`), the token is evicted, and a
subsequent confirm signals 410 and leaves the catalog untouched.  (An
expired entry that no purge has processed is honored as if fresh, as the
counterexample shows.) -/
theorem c4_expired_token_after_purge (cache : List (String × CacheEntry))
    (token : String) (e : CacheEntry) (t : ℤ) (catalog : List Medicine)
    (dispenses : List DispenseLine) (replaceAll : Bool) (nextId : ℕ)
    (hkeys : (dictKeys cache).Nodup)
    (hget : dictGet cache token = some e)
    (hexp : e.created_at < t - IMPORT_PREVIEW_TTL_MINUTES) :
    dictGet (purgeImportCache t cache) token = none ∧
    (importConfirm (purgeImportCache t cache) token catalog dispenses
        replaceAll nextId).1 = Except.error 410 ∧
    (importConfirm (purgeImportCache t cache) token catalog dispenses
        replaceAll nextId).2.1 = catalog := by
  have hnone : dictGet (purgeImportCache t cache) token = none := by
    refine dictGet_filter_none cache _ token e hkeys hget ?_
    simp only [decide_eq_false_iff_not, not_not]
    exact hexp
  refine ⟨hnone, ?_, ?_⟩
  · unfold importConfirm
    rw [hnone]
  · unfold importConfirm
    rw [hnone]

/-- Witness for C4 (amended): entry stored at time `0`, purge at time
`46 > 0 + 45`; the subsequent confirm signals 410 and the catalog
(`[{id 1, name A}]`) is unchanged. -/
theorem c4_expired_token_after_purge_witness :
    (importConfirm
        (purgeImportCache 46
          [("tok", ⟨0, [{ name := some "X", stock_qty := some 1 }], false⟩)])
        "tok" [{ id := 1, name := "A" }] [] false 2).1 = Except.error 410 ∧
    (importConfirm
        (purgeImportCache 46
          [("tok", ⟨0, [{ name := some "X", stock_qty := some 1 }], false⟩)])
        "tok" [{ id := 1, name := "A" }] [] false 2).2.1 =
      [{ id := 1, name := "A" }] := by
  have h := c4_expired_token_after_purge
    [("tok", ⟨0, [{ name := some "X", stock_qty := some 1 }], false⟩)]
    "tok" ⟨0, [{ name := some "X", stock_qty := some 1 }], false⟩ 46
    [{ id := 1, name := "A" }] [] false 2 (by decide) (by decide) (by decide)
  exact ⟨h.2.1, h.2.2⟩

/-- C6: applying the same batch twice under merge semantics is
create-idempotent: provided every row has a nonempty (normalized) name,
distinct primary keys, and fresh id allocation, the second application
reports `created = 0` and `skipped = 0` — every row resolves to an
update. -/
theorem c6_merge_idempotent (catalog : List Medicine)
    (dispenses : List DispenseLine) (rows : List Payload)
    (nextId nextId2 : ℕ)
    (hne : ∀ p ∈ rows, lcOpt p.name ≠ "")
    (hIds : (catalog.map (·.id)).Nodup)
    (hFresh : ∀ m ∈ catalog, m.id < nextId) :
    (applyImportSyncToCsv
        (applyImportSyncToCsv catalog dispenses rows false nextId).1
        dispenses rows false nextId2).2.created = 0 ∧
    (applyImportSyncToCsv
        (applyImportSyncToCsv catalog dispenses rows false nextId).1
        dispenses rows false nextId2).2.skipped = 0 := by
  have hinjId : ∀ m1 ∈ catalog, ∀ m2 ∈ catalog, m1.id = m2.id → m1 = m2 := by
    intro m1 h1 m2 h2 h
    exact List.inj_on_of_nodup_map hIds h1 h2 h
  have hcover : ∀ nm p, (nm, p) ∈ (indexRows [] 0 rows).1 →
      ∃ m ∈ (applyImportSyncToCsv catalog dispenses rows false nextId).1,
        lc m.name = nm := by
    unfold applyImportSyncToCsv
    simp only [Bool.false_eq_true, if_false]
    refine upsertAll_cover (indexRows [] 0 rows).1 (buildExisting [] catalog)
      catalog 0 0 nextId hFresh
      (indexRows_keys_nodup rows [] 0 (by simp [dictKeys]))
      (indexRows_entry rows [] 0 (by simp)) ?_ ?_
    · intro nm p mOld hmem hget
      have hprops := dictGet_buildExisting_props catalog nm mOld hget
      exact ⟨hFresh mOld hprops.2, mOld, hprops.2, rfl⟩
    · intro nm1 p1 nm2 p2 m1 m2 hm1 hm2 hg1 hg2 hid
      have hp1 := dictGet_buildExisting_props catalog nm1 m1 hg1
      have hp2 := dictGet_buildExisting_props catalog nm2 m2 hg2
      rw [← hp1.1, ← hp2.1, hinjId m1 hp1.2 m2 hp2.2 hid]
  constructor
  · conv_lhs =>
      rw [show (applyImportSyncToCsv
          (applyImportSyncToCsv catalog dispenses rows false nextId).1
          dispenses rows false nextId2) =
        (applyImportSyncToCsv
          (applyImportSyncToCsv catalog dispenses rows false nextId).1
          dispenses rows false nextId2) from rfl]
    unfold applyImportSyncToCsv
    simp only [Bool.false_eq_true, if_false]
    refine upsertAll_created_of_found _ _ _ _ _ _ ?_
    intro nm p hmem
    rw [buildExisting_hasKey]
    right
    obtain ⟨m, hm, hlc⟩ := hcover nm p hmem
    refine ⟨m, ?_, hlc⟩
    revert hm
    unfold applyImportSyncToCsv
    simp only [Bool.false_eq_true, if_false]
    exact id
  · unfold applyImportSyncToCsv
    simp only []
    rw [indexRows_skipped rows [] 0]
    have : rows.filter (fun p => lcOpt p.name = "") = [] := by
      rw [List.filter_eq_nil_iff]
      intro p hp
      simp only [decide_eq_true_eq]
      exact hne p hp
    rw [this]
    rfl

/-- Witness for C6 at the spec's merge scenario applied twice. -/
theorem c6_merge_idempotent_witness :
    (applyImportSyncToCsv
        (applyImportSyncToCsv [] []
          [{ name := some "Paracetamol", stock_qty := some 100 },
           { name := some "Ibuprofen", stock_qty := some 50 }] false 1).1
        [] [{ name := some "Paracetamol", stock_qty := some 100 },
            { name := some "Ibuprofen", stock_qty := some 50 }]
        false 3).2.created = 0 ∧
    (applyImportSyncToCsv
        (applyImportSyncToCsv [] []
          [{ name := some "Paracetamol", stock_qty := some 100 },
           { name := some "Ibuprofen", stock_qty := some 50 }] false 1).1
        [] [{ name := some "Paracetamol", stock_qty := some 100 },
            { name := some "Ibuprofen", stock_qty := some 50 }]
        false 3).2.skipped = 0 :=
  c6_merge_idempotent [] []
    [{ name := some "Paracetamol", stock_qty := some 100 },
     { name := some "Ibuprofen", stock_qty := some 50 }] 1 3
    (by decide) (by decide) (by decide)

/-- C7: name-collision policy.  When the batch is `xs ++ p :: ys` and no
row of `ys` shares `p`'s (nonempty) lower-cased name, the index maps
that name to `p` — every earlier colliding row in `xs` has been
overwritten and has no effect — and, when the catalog has no entry of
that name, the upsert persists exactly `p`'s field values as the newly
created row. -/
theorem c7_later_row_wins (xs ys : List Payload) (p : Payload)
    (catalog : List Medicine) (dispenses : List DispenseLine)
    (replaceAll : Bool) (nextId : ℕ)
    (hnm : lcOpt p.name ≠ "")
    (hlater : ∀ q ∈ ys, lcOpt q.name ≠ lcOpt p.name)
    (hnew : ∀ m ∈ catalog, lc m.name ≠ lcOpt p.name)
    (hFresh : ∀ m ∈ catalog, m.id < nextId) :
    dictGet (indexRows [] 0 (xs ++ p :: ys)).1 (lcOpt p.name) = some p ∧
    ∃ i, nextId ≤ i ∧ mkMedicine i p ∈
      (applyImportSyncToCsv catalog dispenses (xs ++ p :: ys)
        replaceAll nextId).1 := by
  have hidx : dictGet (indexRows [] 0 (xs ++ p :: ys)).1 (lcOpt p.name) =
      some p := by
    rw [indexRows_append xs (p :: ys) [] 0]
    simp only [indexRows, if_neg hnm]
    rw [indexRows_get_of_not_mem ys _ _ (lcOpt p.name) hlater,
      dictGet_dictInsert, if_pos rfl]
  refine ⟨hidx, ?_⟩
  have hnone : dictGet (buildExisting [] catalog) (lcOpt p.name) = none := by
    rw [← Option.not_isSome_iff_eq_none]
    intro hs
    have : dictHasKey (buildExisting [] catalog) (lcOpt p.name) = true := hs
    rw [buildExisting_hasKey] at this
    rcases this with h | ⟨m, hm, hlc⟩
    · simp [dictHasKey, dictGet] at h
    · exact hnew m hm hlc
  unfold applyImportSyncToCsv
  simp only []
  refine upsertAll_create_mem (indexRows [] 0 (xs ++ p :: ys)).1
    (buildExisting [] catalog) _ 0 0 nextId (lcOpt p.name) p
    (dictGet_mem hidx)
    ?_ hnone ?_
  · have := indexRows_keys_nodup (xs ++ p :: ys) [] 0 (by simp [dictKeys])
    exact this
  · intro nm' p' mOld hmem' hget'
    exact hFresh mOld (dictGet_buildExisting_props catalog nm' mOld hget').2

/-- Witness for C7: two `"Aspirin"` rows with different quantities; the
later one (qty 2) is what the index holds and what gets persisted. -/
theorem c7_later_row_wins_witness :
    dictGet (indexRows [] 0
        [{ name := some "Aspirin", stock_qty := some 1 },
         { name := some "Aspirin", stock_qty := some 2 }]).1
      (lcOpt (some "Aspirin")) =
      some { name := some "Aspirin", stock_qty := some 2 } ∧
    ∃ i, 1 ≤ i ∧
      mkMedicine i { name := some "Aspirin", stock_qty := some 2 } ∈
        (applyImportSyncToCsv [] []
          [{ name := some "Aspirin", stock_qty := some 1 },
           { name := some "Aspirin", stock_qty := some 2 }] false 1).1 :=
  c7_later_row_wins [{ name := some "Aspirin", stock_qty := some 1 }] []
    { name := some "Aspirin", stock_qty := some 2 } [] [] false 1
    (by decide) (by decide) (by decide) (by decide)

/-- C9: the `setattr` update loop overwrites exactly the fields present
in the payload dict.  Every field absent from the payload keeps its
prior value, every present field takes the payload's value, and the
fields no payload can carry (`id`, `manufacturer`, timestamps) are never
written. -/
theorem c9_update_touches_only_payload_fields (m : Medicine) (p : Payload) :
    ((p.name = none → (applyPayload m p).name = m.name) ∧
      ∀ v, p.name = some v → (applyPayload m p).name = v) ∧
    ((p.strength = none → (applyPayload m p).strength = m.strength) ∧
      ∀ v, p.strength = some v → (applyPayload m p).strength = some v) ∧
    ((p.form = none → (applyPayload m p).form = m.form) ∧
      ∀ v, p.form = some v → (applyPayload m p).form = some v) ∧
    ((p.mrp = none → (applyPayload m p).mrp = m.mrp) ∧
      ∀ v, p.mrp = some v → (applyPayload m p).mrp = v) ∧
    ((p.tax_pct = none → (applyPayload m p).tax_pct = m.tax_pct) ∧
      ∀ v, p.tax_pct = some v → (applyPayload m p).tax_pct = v) ∧
    ((p.stock_qty = none → (applyPayload m p).stock_qty = m.stock_qty) ∧
      ∀ v, p.stock_qty = some v → (applyPayload m p).stock_qty = v) ∧
    ((p.reorder_level = none →
        (applyPayload m p).reorder_level = m.reorder_level) ∧
      ∀ v, p.reorder_level = some v → (applyPayload m p).reorder_level = v) ∧
    ((p.batch_no = none → (applyPayload m p).batch_no = m.batch_no) ∧
      ∀ v, p.batch_no = some v → (applyPayload m p).batch_no = some v) ∧
    ((p.expiry_date = none → (applyPayload m p).expiry_date = m.expiry_date) ∧
      ∀ v, p.expiry_date = some v → (applyPayload m p).expiry_date = some v) ∧
    (applyPayload m p).id = m.id ∧
    (applyPayload m p).manufacturer = m.manufacturer := by
  refine ⟨⟨fun h => ?_, fun v h => ?_⟩, ⟨fun h => ?_, fun v h => ?_⟩,
    ⟨fun h => ?_, fun v h => ?_⟩, ⟨fun h => ?_, fun v h => ?_⟩,
    ⟨fun h => ?_, fun v h => ?_⟩, ⟨fun h => ?_, fun v h => ?_⟩,
    ⟨fun h => ?_, fun v h => ?_⟩, ⟨fun h => ?_, fun v h => ?_⟩,
    ⟨fun h => ?_, fun v h => ?_⟩, rfl, rfl⟩ <;>
  · show _ = _
    unfold applyPayload
    rw [h]
    try rfl

/-- Witness for C9: a payload carrying only a name leaves `strength`,
`mrp`, `stock_qty` and `manufacturer` of the updated row untouched and
overwrites the name. -/
theorem c9_update_touches_only_payload_fields_witness :
    (applyPayload
        { id := 7, name := "Paracetamol", strength := some "500mg",
          stock_qty := 4 }
        { name := some "PARACETAMOL" }).strength = some "500mg" ∧
    (applyPayload
        { id := 7, name := "Paracetamol", strength := some "500mg",
          stock_qty := 4 }
        { name := some "PARACETAMOL" }).stock_qty = 4 ∧
    (applyPayload
        { id := 7, name := "Paracetamol", strength := some "500mg",
          stock_qty := 4 }
        { name := some "PARACETAMOL" }).name = "PARACETAMOL" := by
  have h := c9_update_touches_only_payload_fields
    { id := 7, name := "Paracetamol", strength := some "500mg",
      stock_qty := 4 }
    { name := some "PARACETAMOL" }
  exact ⟨h.2.1.1 rfl, h.2.2.2.2.2.1.1 rfl, h.1.2 "PARACETAMOL" rfl⟩

/-- C8: `_row_to_payload` numeric parsing.  The value stored for `mrp` /
`tax_pct` is the float-parse of the last cell mapped to that field,
defaulting to `0.0` on empty or unparsable input; the value stored for
`stock_qty` / `reorder_level` is the integer truncation of the same
parse, defaulting to `0`.  Parsing is a total function — a parse failure
yields the default instead of raising.  (`truncQ` is truncation toward
zero: floor on non-negatives, ceiling on negatives.  Floats are embedded
as exact rationals over the decimal-literal fragment of Python's float
grammar.) -/
theorem c8_row_to_payload_numeric (row : List (String × String)) :
    ((rowToPayload row).mrp =
      match lastCellFor row "mrp" with
      | some v => some (floatOrZero (strip v))
      | none => none) ∧
    ((rowToPayload row).tax_pct =
      match lastCellFor row "tax_pct" with
      | some v => some (floatOrZero (strip v))
      | none => none) ∧
    ((rowToPayload row).stock_qty =
      match lastCellFor row "stock_qty" with
      | some v => some (intOrZero (strip v))
      | none => none) ∧
    ((rowToPayload row).reorder_level =
      match lastCellFor row "reorder_level" with
      | some v => some (intOrZero (strip v))
      | none => none) ∧
    floatOrZero "" = 0 ∧ intOrZero "" = 0 ∧
    (∀ s, parseDec? s = none → floatOrZero s = 0 ∧ intOrZero s = 0) ∧
    (∀ s q, parseDec? s = some q →
      floatOrZero s = q ∧ intOrZero s = truncQ q) ∧
    (∀ q : ℚ, 0 ≤ q → truncQ q = ⌊q⌋) ∧
    (∀ q : ℚ, q < 0 → truncQ q = ⌈q⌉) := by
  refine ⟨rowToPayload_mrp row, rowToPayload_tax_pct row,
    rowToPayload_stock_qty row, rowToPayload_reorder_level row,
    rfl, rfl, ?_, ?_, truncQ_of_nonneg, truncQ_of_neg⟩
  · intro s h
    by_cases hs : s = ""
    · subst hs
      exact ⟨rfl, rfl⟩
    · unfold floatOrZero intOrZero
      rw [if_neg hs, if_neg hs, h]
      exact ⟨rfl, rfl⟩
  · intro s q h
    by_cases hs : s = ""
    · subst hs
      rw [show parseDec? "" = none from rfl] at h
      exact Option.noConfusion h
    · unfold floatOrZero intOrZero
      rw [if_neg hs, if_neg hs, h]
      exact ⟨rfl, rfl⟩

/-- Witness for C8 at the row `Name=Aspirin, Qty=3.9, MRP=12.5`:
`stock_qty` is the truncation `3` of `39/10`, `mrp` is `25/2`, and an
unparsable cell falls back to `0`. -/
theorem c8_row_to_payload_numeric_witness :
    (rowToPayload
        [("Name", "Aspirin"), ("Qty", "3.9"), ("MRP", "12.5")]).stock_qty =
      some (intOrZero "3.9") ∧
    intOrZero "3.9" = truncQ (mkRat 39 10) ∧
    truncQ (mkRat 39 10) = ⌊(mkRat 39 10 : ℚ)⌋ ∧
    floatOrZero "zz" = 0 ∧
    intOrZero "3.9" = 3 := by
  have h := c8_row_to_payload_numeric
    [("Name", "Aspirin"), ("Qty", "3.9"), ("MRP", "12.5")]
  refine ⟨?_, ?_, ?_, ?_, by decide⟩
  · rw [h.2.2.1]
    decide
  · exact (h.2.2.2.2.2.2.2.1 "3.9" (mkRat 39 10) (by decide)).2
  · exact h.2.2.2.2.2.2.2.2.1 (mkRat 39 10) (by decide)
  · exact (h.2.2.2.2.2.2.1 "zz" (by decide)).1

/-- C10: one reconciliation call preserves catalog name-uniqueness.  If
no two catalog rows share a stripped lower-cased name (and primary keys
are distinct, with fresh id allocation), then after
`_apply_import_sync_to_csv` — any batch, either `replace_all` value —
the catalog still has pairwise-distinct lower-cased names: creations only
introduce names absent from the existing index, and updates preserve
each row's lower-cased name key. -/
theorem c10_name_uniqueness_preserved (catalog : List Medicine)
    (dispenses : List DispenseLine) (rows : List Payload)
    (replaceAll : Bool) (nextId : ℕ)
    (hNames : (catalog.map (fun m => lc m.name)).Nodup)
    (hIds : (catalog.map (·.id)).Nodup)
    (hFresh : ∀ m ∈ catalog, m.id < nextId) :
    ((applyImportSyncToCsv catalog dispenses rows replaceAll nextId).1.map
      (fun m => lc m.name)).Nodup := by
  have hinjId : ∀ m1 ∈ catalog, ∀ m2 ∈ catalog, m1.id = m2.id → m1 = m2 := by
    intro m1 h1 m2 h2 h
    exact List.inj_on_of_nodup_map hIds h1 h2 h
  unfold applyImportSyncToCsv
  simp only []
  refine upsertAll_names_nodup _ _ _ _ _ _ ?_ ?_ ?_
    (indexRows_keys_nodup rows [] 0 (by simp [dictKeys]))
    (indexRows_entry rows [] 0 (by simp)) ?_ ?_ ?_
  · split
    · exact ((List.filter_sublist catalog).map _).nodup hNames
    · exact hNames
  · split
    · exact ((List.filter_sublist catalog).map _).nodup hIds
    · exact hIds
  · intro m hm
    refine hFresh m ?_
    split at hm
    · exact (List.mem_filter.mp hm).1
    · exact hm
  · intro nm p mOld hmem hget
    have hprops := dictGet_buildExisting_props catalog nm mOld hget
    refine ⟨hFresh mOld hprops.2, ?_⟩
    intro m hm hid
    have hmc : m ∈ catalog := by
      split at hm
      · exact (List.mem_filter.mp hm).1
      · exact hm
    rw [hinjId m hmc mOld hprops.2 hid]
    exact hprops.1
  · intro nm p hmem hget
    intro m hm
    have hmc : m ∈ catalog := by
      split at hm
      · exact (List.mem_filter.mp hm).1
      · exact hm
    intro hc
    have : dictHasKey (buildExisting [] catalog) nm = true :=
      (buildExisting_hasKey catalog [] nm).mpr (Or.inr ⟨m, hmc, hc⟩)
    rw [dictHasKey, hget] at this
    exact Bool.false_ne_true this
  · intro nm1 p1 nm2 p2 m1 m2 hm1 hm2 hg1 hg2 hid
    have hp1 := dictGet_buildExisting_props catalog nm1 m1 hg1
    have hp2 := dictGet_buildExisting_props catalog nm2 m2 hg2
    rw [← hp1.1, ← hp2.1, hinjId m1 hp1.2 m2 hp2.2 hid]

/-- Witness for C10: a unique-name catalog stays unique-named after a
replace-mode import that updates one row, deletes another and creates a
third. -/
theorem c10_name_uniqueness_preserved_witness :
    ((applyImportSyncToCsv
        [{ id := 1, name := "A" }, { id := 2, name := "B" }] []
        [{ name := some "a", stock_qty := some 5 },
         { name := some "C", stock_qty := some 1 }] true 3).1.map
      (fun m => lc m.name)).Nodup :=
  c10_name_uniqueness_preserved
    [{ id := 1, name := "A" }, { id := 2, name := "B" }] []
    [{ name := some "a", stock_qty := some 5 },
     { name := some "C", stock_qty := some 1 }] true 3
    (by decide) (by decide) (by decide)

end PharmaDesk
